import Mathlib

/-!
# Galton board: distributions, mean squared error, simulation and driver

A shallow embedding of `galtonboard.cpp`.

* `int` is modelled by `Int`.  Every intermediate integer of the functions
  below (`n - k`, `n - k + i`, `i + 1`, `n + 1`, a vector size) lies between
  the inputs and `n + 1`, so the embedding is the code for every `n` with
  `n + 1` representable.  The one place where an input of the program leaves
  that range is `main` at `n = INT_MAX`: there the size `n + 1` of
  `avg_observed` is wrapped to the 32 bits of `int` (`int_wrap`), and the
  negative count makes the constructor of the vector throw.
* `long double` is modelled by exact arithmetic in a field `K` (the
  rationals where a value is to be computed, the reals equally).  A
  quotient by zero follows the field convention `x / 0 = 0`; the statements
  below only speak about quotients whose divisor is not zero.
* `vector<long double>` is modelled by `List K`, `v[i] = x` by `List.set`
  and `v[i]` by `List.getD`.
* `exit(1)` and an uncaught exception end the computation: the functions
  that can reach one return `Except Failure`.
-/

namespace GaltonBoard

/-- Ways in which the C++ computation stops without returning a value. -/
inductive Failure where
  /-- The call `exit(status)`. -/
  | exit (status : Int)
  /-- The exception `std::length_error` of `vector(count)` when a negative
  `int` count is converted to `size_t`. -/
  | length_error
  deriving DecidableEq, Repr

/-- The body of the `for (int i = 1; i <= k; ++i)` loop of `binomial_coeff`
with its loop test: `res *= n - k + i; res /= i;`. -/
def binomial_coeff_loop {K : Type} [Field K] (n k : Int) (i : Int) (res : K) : K :=
  if i ≤ k then
    binomial_coeff_loop n k (i + 1) (res * ((n - k + i : Int) : K) / ((i : Int) : K))
  else res
termination_by (k + 1 - i).toNat
decreasing_by omega

/-- The function `long double binomial_coeff(int n, int k)`. -/
def binomial_coeff (K : Type) [Field K] (n k : Int) : K :=
  if k < 0 ∨ k > n then 0
  else if k = 0 ∨ k = n then 1
  else
    let k := if k > n - k then n - k else k
    binomial_coeff_loop n k 1 1

/-- The loop `for (int k = 0; k <= n; ++k) p[k] = binomial_coeff(n, k) / powl(2.0L, n);`
of `binomial_distr`, started at `k` on the vector `p`. -/
def binomial_distr_loop (K : Type) [Field K] (n : Int) (k : Int) (p : List K) : List K :=
  if k ≤ n then
    binomial_distr_loop K n (k + 1) (p.set k.toNat (binomial_coeff K n k / (2 : K) ^ n))
  else p
termination_by (n + 1 - k).toNat
decreasing_by omega

/-- The function `vector<long double> binomial_distr(int n)`: a vector of `n + 1`
zeros is allocated (a negative count throws) and filled by the loop. -/
def binomial_distr (K : Type) [Field K] (n : Int) : Except Failure (List K) :=
  if n + 1 < 0 then .error .length_error
  else .ok (binomial_distr_loop K n 0 (List.replicate (n + 1).toNat 0))

/-- The loop `for (int i = 0; i < n; ++i) { diff = a[i] - b[i]; mse += diff * diff; }`
of `mean_squared_error`, started at `i` with the running sum `mse`. -/
def mean_squared_error_loop {K : Type} [Field K] (a b : List K) (n : Int) (i : Int)
    (mse : K) : K :=
  if i < n then
    let diff := a.getD i.toNat 0 - b.getD i.toNat 0
    mean_squared_error_loop a b n (i + 1) (mse + diff * diff)
  else mse
termination_by (n - i).toNat
decreasing_by omega

/-- The function `long double mean_squared_error(a, b)`: `exit(1)` when the sizes
differ, otherwise the accumulated sum of squared differences divided by `n`. -/
def mean_squared_error {K : Type} [Field K] (a b : List K) : Except Failure K :=
  let n : Int := a.length
  if (b.length : Int) ≠ n then .error (.exit 1)
  else .ok (mean_squared_error_loop a b n 0 0 / ((n : Int) : K))

/-! ## Normal density, simulation and driver

* The `<cmath>` functions `sqrtl`, `expl` and `acosl` are parameters of the
  embedding (`LongDoubleMath`); over the reals they are `Real.sqrt`,
  `Real.exp` and `Real.arccos`.
* The generator `mt19937 gen(rd())` with `bernoulli_distribution coin(0.5)` is
  modelled by the sequence `flips` of the outcomes of the successive calls
  `coin(gen)` and the number `pos` of calls made so far; every invocation of
  `galton_board` owns a fresh generator, hence a sequence of its own.
* `vector<int>` is modelled by `List Int`.  An index outside a vector, undefined
  in C++, leaves the list unchanged (`List.set`) or reads `0` (`List.getD`); the
  theorems on the simulation show that the tally index stays inside the vector.
-/

/-- The functions of `<cmath>` called by `normal_distr`. -/
structure LongDoubleMath (K : Type) where
  /-- The function `sqrtl`. -/
  sqrtl : K → K
  /-- The function `expl`. -/
  expl : K → K
  /-- The function `acosl`. -/
  acosl : K → K

/-- A counted loop `for (int i = i0; i < hi; ++i) s = body(i, s);` entered at `i`
with state `s`.  A loop with the test `i <= n` is the one with `hi = n + 1`. -/
def for_loop {σ : Type} (hi : Int) (body : Int → σ → σ) (i : Int) (s : σ) : σ :=
  if i < hi then for_loop hi body (i + 1) (body i s) else s
termination_by (hi - i).toNat
decreasing_by omega

/-- The local `mu = n / 2.0L` of `normal_distr`. -/
def normal_mu (K : Type) [Field K] (n : Int) : K := ((n : Int) : K) / 2

/-- The local `sigma = sqrtl((long double)n) / 2.0L` of `normal_distr`. -/
def normal_sigma {K : Type} [Field K] (M : LongDoubleMath K) (n : Int) : K :=
  M.sqrtl ((n : Int) : K) / 2

/-- The value stored in `f[k]` by the loop body of `normal_distr`:
`exponent = -((k - mu) * (k - mu)) / (2.0L * sigma * sigma)` and
`(1.0L / (sigma * sqrtl(2.0L * pi))) * expl(exponent)` with `pi = acosl(-1.0L)`. -/
def normal_pdf {K : Type} [Field K] (M : LongDoubleMath K) (n k : Int) : K :=
  let pi : K := M.acosl (-1)
  let mu : K := normal_mu K n
  let sigma : K := normal_sigma M n
  let exponent : K := (-((((k : Int) : K) - mu) * (((k : Int) : K) - mu))) / (2 * sigma * sigma)
  (1 / (sigma * M.sqrtl (2 * pi))) * M.expl exponent

/-- The function `vector<long double> normal_distr(int n)`. -/
def normal_distr {K : Type} [Field K] (M : LongDoubleMath K) (n : Int) :
    Except Failure (List K) :=
  if n + 1 < 0 then .error .length_error
  else .ok (for_loop (n + 1) (fun k f => f.set k.toNat (normal_pdf M n k)) 0
    (List.replicate (n + 1).toNat 0))

/-- The `struct ExperimentResult`. -/
structure ExperimentResult (K : Type) where
  /-- The field `observed`. -/
  observed : List K
  /-- The field `expected_binom`. -/
  expected_binom : List K
  /-- The field `expected_normal`. -/
  expected_normal : List K
  /-- The field `mse_ob_bin`. -/
  mse_ob_bin : K
  /-- The field `mse_ob_norm`. -/
  mse_ob_norm : K
  /-- The field `mse_bin_norm`. -/
  mse_bin_norm : K

/-- One ball of `galton_board`: `right_moves = 0` and the loop
`for (int step = 0; step < n; ++step) if (coin(gen)) ++right_moves;`, started with
`pos` calls of `coin(gen)` already made.  Returns `right_moves` and the new number
of calls. -/
def galton_board_ball (n : Int) (flips : Nat → Bool) (pos : Nat) : Int × Nat :=
  for_loop n (fun _ s => (if flips s.2 then s.1 + 1 else s.1, s.2 + 1)) 0 (0, pos)

/-- The simulation loop of `galton_board`,
`for (int b = 0; b < N; ++b) { ...; ++counts[right_moves]; }`, entered at ball `b`
with the tallies `counts` and `pos` calls of `coin(gen)` made.  Returns the
tallies and the number of calls. -/
def galton_board_balls (n N : Int) (flips : Nat → Bool) (b : Int) (s : List Int × Nat) :
    List Int × Nat :=
  for_loop N (fun _ s =>
    let ball := galton_board_ball n flips s.2
    (s.1.set ball.1.toNat (s.1.getD ball.1.toNat 0 + 1), ball.2)) b s

/-- The tallies of `galton_board` after the simulation loop, from
`vector<int> counts(n + 1, 0)`. -/
def galton_board_counts (n N : Int) (flips : Nat → Bool) : List Int :=
  (galton_board_balls n N flips 0 (List.replicate (n + 1).toNat 0, 0)).1

/-- The observed distribution of `galton_board`:
`for (int k = 0; k <= n; ++k) p_observed[k] = (long double)counts[k] / N;`. -/
def galton_board_observed (K : Type) [Field K] (n N : Int) (counts : List Int) : List K :=
  for_loop (n + 1)
    (fun k p => p.set k.toNat (((counts.getD k.toNat 0 : Int) : K) / ((N : Int) : K))) 0
    (List.replicate (n + 1).toNat 0)

/-- The second half of `galton_board`, from `p_observed` on: the two theoretical
distributions, the three calls of `mean_squared_error` and the returned struct. -/
def galton_board_compare {K : Type} [Field K] (M : LongDoubleMath K) (n : Int)
    (p_observed : List K) : Except Failure (ExperimentResult K) :=
  match binomial_distr K n with
  | .error e => .error e
  | .ok p_binom =>
    match normal_distr M n with
    | .error e => .error e
    | .ok p_normal =>
      match mean_squared_error p_observed p_binom with
      | .error e => .error e
      | .ok mse_ob_bin =>
        match mean_squared_error p_observed p_normal with
        | .error e => .error e
        | .ok mse_ob_norm =>
          match mean_squared_error p_binom p_normal with
          | .error e => .error e
          | .ok mse_bin_norm =>
            .ok ⟨p_observed, p_binom, p_normal, mse_ob_bin, mse_ob_norm, mse_bin_norm⟩

/-- The function `ExperimentResult galton_board(int n, int N)`, run on the coin
outcomes `flips`. -/
def galton_board {K : Type} [Field K] (M : LongDoubleMath K) (n N : Int)
    (flips : Nat → Bool) : Except Failure (ExperimentResult K) :=
  if n + 1 < 0 then .error .length_error
  else
    galton_board_compare M n (galton_board_observed K n N (galton_board_counts n N flips))

/-- The variables of `main` that its repetition loop updates.  The ghost field `runs`
lists the results of the calls of `galton_board` that have returned, the oldest
first. -/
structure DriverState (K : Type) where
  /-- The vector `avg_observed`. -/
  avg_observed : List K
  /-- The variable `sum_mse_ob_bin`. -/
  sum_mse_ob_bin : K
  /-- The variable `sum_mse_ob_norm`. -/
  sum_mse_ob_norm : K
  /-- The variable `r`. -/
  r : ExperimentResult K
  /-- Ghost: the results of the simulations run so far. -/
  runs : List (ExperimentResult K)

/-- The values `main` reports: `avg_observed`, `binom`, `norm` (printed in the first
table, each multiplied by `N`) and the three errors of the second table. -/
structure Report (K : Type) where
  /-- The vector `avg_observed` after the division by `x`. -/
  avg_observed : List K
  /-- The vector `binom`. -/
  binom : List K
  /-- The vector `norm`. -/
  norm : List K
  /-- The variable `avg_mse_ob_bin`, printed as "Observed vs Binomial". -/
  avg_mse_ob_bin : K
  /-- The variable `avg_mse_ob_norm`, printed as "Observed vs Normal". -/
  avg_mse_ob_norm : K
  /-- The variable `mse_bin_norm`, printed as "Binomial vs Normal". -/
  mse_bin_norm : K

/-- What a run of the program amounts to: the simulations it ran and either the
report it printed before `return 0` or the way it stopped (`return 1` from `main`
is `exit(1)`). -/
structure Outcome (K : Type) where
  /-- Ghost: the results of the simulations that were run. -/
  runs : List (ExperimentResult K)
  /-- The report, or the failure. -/
  result : Except Failure (Report K)

/-- The exit status of the process; none when an uncaught exception aborted it. -/
def Outcome.status {K : Type} (o : Outcome K) : Option Int :=
  match o.result with
  | .ok _ => some 0
  | .error (.exit s) => some s
  | .error .length_error => none

/-- The repetition loop of `main`, `for (int i = 0; i < x; ++i) { r = galton_board(n, N); ... }`,
entered at `i`; `run i` is the outcome of the call of `galton_board` in iteration `i`.
Returns the state and the failure that ended the process, if any. -/
def main_loop {K : Type} [Field K] (run : Nat → Except Failure (ExperimentResult K))
    (n x : Int) (i : Int) (st : DriverState K) : DriverState K × Option Failure :=
  if i < x then
    match run i.toNat with
    | .error e => (st, some e)
    | .ok r =>
      main_loop run n x (i + 1)
        { avg_observed :=
            for_loop (n + 1)
              (fun j avg => avg.set j.toNat (avg.getD j.toNat 0 + r.observed.getD j.toNat 0)) 0
              st.avg_observed
          sum_mse_ob_bin := st.sum_mse_ob_bin + r.mse_ob_bin
          sum_mse_ob_norm := st.sum_mse_ob_norm + r.mse_ob_norm
          r := r
          runs := st.runs ++ [r] }
  else (st, none)
termination_by (x - i).toNat
decreasing_by omega

/-- The function `main` after its two checks, once the size `n + 1` of `avg_observed`
is a valid count (see `main`), as a function of the outcomes `run i` of the calls of
`galton_board`: the accumulators, the loop, the division by `x` and the reported
values.  The default-constructed `r` has empty vectors. -/
def main_run {K : Type} [Field K] (run : Nat → Except Failure (ExperimentResult K))
    (n x : Int) : Outcome K :=
  match main_loop run n x 0
      ⟨List.replicate (n + 1).toNat 0, 0, 0, ⟨[], [], [], 0, 0, 0⟩, []⟩ with
  | (st, some e) => ⟨st.runs, .error e⟩
  | (st, none) =>
    ⟨st.runs, .ok
      { avg_observed :=
          for_loop (n + 1)
            (fun k avg => avg.set k.toNat (avg.getD k.toNat 0 / ((x : Int) : K))) 0
            st.avg_observed
        binom := st.r.expected_binom
        norm := st.r.expected_normal
        avg_mse_ob_bin := st.sum_mse_ob_bin / ((x : Int) : K)
        avg_mse_ob_norm := st.sum_mse_ob_norm / ((x : Int) : K)
        mse_bin_norm := st.r.mse_bin_norm }⟩

/-- The largest value of the 32-bit type `int`. -/
def INT_MAX : Int := 2147483647

/-- The `int` that a sum of two `int`s with the mathematical value `z` yields: `z`
reduced to the 32 bits of `int` in two's complement.  (Signed overflow is undefined
in C++; this is what the compiled program does.) -/
def int_wrap (z : Int) : Int := (z + 2147483648) % 4294967296 - 2147483648

/-- The function `int main(int argc, char* argv[])` as a function of `argc`, of the
three integers `n`, `N`, `x` read by `atoi`, and of the coin outcomes `flips i` of
the generator of the `i`-th call of `galton_board`.  After the two checks,
`vector<long double> avg_observed(n + 1, 0.0L)` computes `n + 1` in `int`: at
`n = INT_MAX` the sum wraps to a negative count, the constructor throws
`std::length_error` and the process is aborted before any simulation. -/
def main {K : Type} [Field K] (M : LongDoubleMath K) (argc n N x : Int)
    (flips : Nat → Nat → Bool) : Outcome K :=
  if argc ≠ 4 then ⟨[], .error (.exit 1)⟩
  else if n ≤ 0 ∨ N ≤ 0 ∨ x ≤ 0 then ⟨[], .error (.exit 1)⟩
  else if int_wrap (n + 1) < 0 then ⟨[], .error .length_error⟩
  else main_run (fun i => galton_board M n N (flips i)) n x

/-! ## The binomial coefficient -/

/-- On the edges `k = 0` and `k = n` of a row the function returns `1`. -/
theorem binomial_coeff_edge {K : Type} [Field K] (n k : Int) (h0 : 0 ≤ k) (hk : k ≤ n)
    (hb : k = 0 ∨ k = n) : binomial_coeff K n k = 1 := by
  have hr : ¬ (k < 0 ∨ k > n) := by omega
  unfold binomial_coeff
  rw [if_neg hr, if_pos hb]

/-- Strictly inside a row the function is the loop run up to `min(k, n - k)`. -/
theorem binomial_coeff_inner {K : Type} [Field K] (n k : Int) (h0 : 0 ≤ k) (hk : k ≤ n)
    (hb : ¬ (k = 0 ∨ k = n)) :
    binomial_coeff K n k
      = binomial_coeff_loop n (if k > n - k then n - k else k) 1 (1 : K) := by
  have hr : ¬ (k < 0 ∨ k > n) := by omega
  unfold binomial_coeff
  rw [if_neg hr, if_neg hb]


section Binomial

variable {K : Type} [Field K] [CharZero K]

/-- One step of the product: `C(m+j, j) * (m+j+1) / (j+1) = C(m+j+1, j+1)`. -/
theorem choose_step (m j : Nat) :
    (Nat.choose (m + j) j : K) * ((m + j + 1 : Nat) : K) / ((j + 1 : Nat) : K)
      = (Nat.choose (m + j + 1) (j + 1) : K) := by
  have h : (m + j + 1) * Nat.choose (m + j) j = Nat.choose (m + j + 1) (j + 1) * (j + 1) :=
    Nat.succ_mul_choose_eq (m + j) j
  have hK : ((m + j + 1 : Nat) : K) * (Nat.choose (m + j) j : K)
      = (Nat.choose (m + j + 1) (j + 1) : K) * ((j + 1 : Nat) : K) := by
    exact_mod_cast congrArg (Nat.cast : Nat → K) h
  have hne : ((j + 1 : Nat) : K) ≠ 0 := Nat.cast_ne_zero.mpr (Nat.succ_ne_zero j)
  rw [div_eq_iff hne, mul_comm, hK]

/-- Loop invariant of `binomial_coeff`: entering iteration `i = j + 1` with
`res = C(m + j, j)`, where `m = n - k`, the loop ends with `C(m + k, k)`. -/
theorem binomial_coeff_loop_choose (m k : Nat) :
    ∀ (d j : Nat), j + d = k →
      binomial_coeff_loop (((m + k : Nat) : Int)) (k : Int) ((j : Int) + 1)
        (Nat.choose (m + j) j : K) = (Nat.choose (m + k) k : K) := by
  intro d
  induction d with
  | zero =>
    intro j hj
    have hjk : j = k := by omega
    subst hjk
    rw [binomial_coeff_loop, if_neg (by omega)]
  | succ d ih =>
    intro j hj
    rw [binomial_coeff_loop, if_pos (by omega)]
    have harg : (((m + k : Nat) : Int) - (k : Int) + ((j : Int) + 1)) = ((m + j + 1 : Nat) : Int) := by
      push_cast; ring
    have hi : ((j : Int) + 1) = ((j + 1 : Nat) : Int) := by push_cast; ring
    rw [harg, hi, Int.cast_natCast, Int.cast_natCast, choose_step]
    have := ih (j + 1) (by omega)
    rw [← hi] at this ⊢
    simpa [Nat.add_assoc] using this

/-- The loop of `binomial_coeff`, run from `i = 1` and `res = 1` with bound `k`
on `n = m + k`, yields `C(m + k, k)`. -/
theorem binomial_coeff_loop_run (m k : Nat) :
    binomial_coeff_loop (((m + k : Nat) : Int)) (k : Int) 1 (1 : K)
      = (Nat.choose (m + k) k : K) := by
  have := binomial_coeff_loop_choose (K := K) m k k 0 (by omega)
  simpa using this

/-- The value of `binomial_coeff` on `0 ≤ k ≤ n` is the binomial coefficient. -/
theorem binomial_coeff_eq_choose (n k : Nat) (hk : k ≤ n) :
    binomial_coeff K (n : Int) (k : Int) = (Nat.choose n k : K) := by
  unfold binomial_coeff
  rw [if_neg (by omega)]
  by_cases h0 : (k : Int) = 0 ∨ (k : Int) = (n : Int)
  · rw [if_pos h0]
    rcases h0 with h0 | h0
    · have : k = 0 := by omega
      subst this; simp
    · have : k = n := by omega
      subst this; simp
  · rw [if_neg h0]
    by_cases hgt : (k : Int) > (n : Int) - (k : Int)
    · simp only [hgt, if_true]
      obtain ⟨m, rfl⟩ : ∃ m, n = m + k := ⟨n - k, by omega⟩
      have e1 : ((m + k : Nat) : Int) - (k : Int) = (m : Int) := by push_cast; ring
      rw [e1]
      have e2 : ((m + k : Nat) : Int) = ((k + m : Nat) : Int) := by push_cast; ring
      rw [e2, binomial_coeff_loop_run k m, Nat.add_comm k m]
      have := Nat.choose_symm (Nat.le_add_left k m)
      simp only [Nat.add_sub_cancel] at this
      rw [← this]
    · simp only [hgt, if_false]
      obtain ⟨m, rfl⟩ : ∃ m, n = m + k := ⟨n - k, by omega⟩
      exact binomial_coeff_loop_run m k

/-- Sum of the values of `binomial_coeff` over a row, as a sum of binomial
coefficients. -/
theorem sum_binomial_coeff (n : Nat) :
    (∑ k in Finset.range (n + 1), binomial_coeff K (n : Int) (k : Int)) = (2 : K) ^ n := by
  have h1 : ∀ k ∈ Finset.range (n + 1),
      binomial_coeff K (n : Int) (k : Int) = (Nat.choose n k : K) := by
    intro k hk
    exact binomial_coeff_eq_choose n k (by simpa [Nat.lt_succ_iff] using hk)
  rw [Finset.sum_congr rfl h1, ← Nat.cast_sum, Nat.sum_range_choose]
  push_cast
  rfl

end Binomial

/-! ## The binomial distribution -/

section Distribution

variable {K : Type} [Field K]

/-- The loop of `binomial_distr` keeps the size of the vector. -/
theorem binomial_distr_loop_length (n : Nat) :
    ∀ (d j : Nat) (p : List K), j + d = n + 1 →
      (binomial_distr_loop K (n : Int) (j : Int) p).length = p.length := by
  intro d
  induction d with
  | zero =>
    intro j p hj
    rw [binomial_distr_loop, if_neg (by omega)]
  | succ d ih =>
    intro j p hj
    rw [binomial_distr_loop, if_pos (by omega)]
    have hi : ((j : Int) + 1) = ((j + 1 : Nat) : Int) := by push_cast; ring
    rw [hi, ih (j + 1) _ (by omega), List.length_set]

/-- The loop of `binomial_distr` entered at `k = j`: the entries `j .. n` inside
the vector are overwritten with `binomial_coeff(n, i) / 2^n`, the others are kept. -/
theorem binomial_distr_loop_getElem (n : Nat) :
    ∀ (d j : Nat) (p : List K) (i : Nat), j + d = n + 1 →
      (binomial_distr_loop K (n : Int) (j : Int) p)[i]?
        = if j ≤ i ∧ i ≤ n ∧ i < p.length
          then some (binomial_coeff K (n : Int) (i : Int) / (2 : K) ^ (n : Int))
          else p[i]? := by
  intro d
  induction d with
  | zero =>
    intro j p i hj
    rw [binomial_distr_loop, if_neg (by omega), if_neg (by omega)]
  | succ d ih =>
    intro j p i hj
    rw [binomial_distr_loop, if_pos (by omega)]
    have hi : ((j : Int) + 1) = ((j + 1 : Nat) : Int) := by push_cast; ring
    rw [hi, ih (j + 1) _ i (by omega), List.length_set, Int.toNat_ofNat, List.getElem?_set]
    by_cases h1 : j + 1 ≤ i ∧ i ≤ n ∧ i < p.length
    · rw [if_pos h1, if_pos (by omega)]
    · rw [if_neg h1]
      by_cases h2 : j = i
      · subst h2
        by_cases h3 : j < p.length
        · rw [if_pos rfl, if_pos h3, if_pos (by omega)]
        · rw [if_pos rfl, if_neg h3, if_neg (by omega)]
          exact (List.getElem?_eq_none (by omega)).symm
      · rw [if_neg h2, if_neg (by omega)]

/-- The vector returned by `binomial_distr(n)` for `n ≥ 0`, entry by entry. -/
theorem binomial_distr_eq_map (n : Nat) :
    binomial_distr K (n : Int)
      = .ok ((List.range (n + 1)).map
          (fun k : Nat => binomial_coeff K (n : Int) (k : Int) / (2 : K) ^ (n : Int))) := by
  unfold binomial_distr
  rw [if_neg (by omega)]
  congr 1
  apply List.ext_getElem?
  intro i
  have hz : (0 : Int) = ((0 : Nat) : Int) := rfl
  have hn : ((n : Int) + 1).toNat = n + 1 := by omega
  rw [hz, binomial_distr_loop_getElem n (n + 1) 0 _ i (by omega), hn, List.length_replicate,
    List.getElem?_map, List.getElem?_replicate]
  by_cases h : i < n + 1
  · rw [if_pos (by omega), List.getElem?_range h]
    rfl
  · rw [if_neg (by omega), if_neg h, List.getElem?_eq_none (by simpa using h)]
    rfl

/-- The sum of a list mapped over `List.range` is the sum over `Finset.range`. -/
theorem sum_map_range_eq (g : Nat → K) (m : Nat) :
    ((List.range m).map g).sum = ∑ i in Finset.range m, g i := by
  induction m with
  | zero => simp
  | succ m ih => rw [List.sum_range_succ, Finset.sum_range_succ, ih]

end Distribution

/-! ## The mean squared error -/

section MeanSquaredError

variable {K : Type} [Field K]

/-- Loop invariant of `mean_squared_error`: entered at `i = j` with the running sum
`acc`, the loop adds the squared differences of the positions `j .. n - 1`. -/
theorem mean_squared_error_loop_sum (a b : List K) (n : Nat) :
    ∀ (d j : Nat) (acc : K), j + d = n →
      mean_squared_error_loop a b (n : Int) (j : Int) acc
        = acc + ∑ i in Finset.Ico j n,
            (a.getD i 0 - b.getD i 0) * (a.getD i 0 - b.getD i 0) := by
  intro d
  induction d with
  | zero =>
    intro j acc hj
    have hjn : j = n := by omega
    subst hjn
    rw [mean_squared_error_loop, if_neg (by omega)]
    simp
  | succ d ih =>
    intro j acc hj
    rw [mean_squared_error_loop, if_pos (by omega)]
    have hi : ((j : Int) + 1) = ((j + 1 : Nat) : Int) := by push_cast; ring
    simp only [Int.toNat_ofNat]
    rw [hi, ih (j + 1) _ (by omega), Finset.sum_eq_sum_Ico_succ_bot (by omega : j < n), add_assoc]

/-- On vectors of different sizes `mean_squared_error` calls `exit(1)`. -/
theorem mean_squared_error_ne (a b : List K) (h : a.length ≠ b.length) :
    mean_squared_error a b = .error (.exit 1) := by
  have hne : ((b.length : Int)) ≠ ((a.length : Int)) := by omega
  unfold mean_squared_error
  simp only []
  rw [if_pos hne]

/-- On vectors of one size `mean_squared_error` returns the sum of the squared
differences of all positions, divided by the size. -/
theorem mean_squared_error_eq (a b : List K) (h : a.length = b.length) :
    mean_squared_error a b
      = .ok ((∑ i in Finset.range a.length,
              (a.getD i 0 - b.getD i 0) * (a.getD i 0 - b.getD i 0)) / (a.length : K)) := by
  have hne : ¬ ((b.length : Int)) ≠ ((a.length : Int)) := by omega
  have hz : (0 : Int) = ((0 : Nat) : Int) := rfl
  unfold mean_squared_error
  simp only []
  rw [if_neg hne, hz, mean_squared_error_loop_sum a b a.length a.length 0 0 (by omega),
    zero_add, Int.cast_natCast, Nat.Ico_zero_eq_range]

end MeanSquaredError

/-- Claim C1: for `0 ≤ k ≤ n`, `binomial_coeff(n, k)` in exact arithmetic is the
binomial coefficient `C(n,k) = n! / (k! (n-k)!)`, and so is the value of the
multiply-then-divide loop run for `i = 1 .. min(k, n-k)`. -/
theorem binomial_coeff_exact (K : Type) [Field K] [CharZero K] (n k : Nat) (hk : k ≤ n) :
    binomial_coeff K (n : Int) (k : Int) = (Nat.choose n k : K)
    ∧ binomial_coeff K (n : Int) (k : Int)
        = (n.factorial : K) / ((k.factorial : K) * ((n - k).factorial : K))
    ∧ binomial_coeff_loop (n : Int) ((min k (n - k) : Nat) : Int) 1 (1 : K)
        = (n.factorial : K) / ((k.factorial : K) * ((n - k).factorial : K)) := by
  have hc := binomial_coeff_eq_choose (K := K) n k hk
  refine ⟨hc, ?_, ?_⟩
  · rw [hc, Nat.cast_choose K hk]
  · rw [← Nat.cast_choose K hk]
    obtain ⟨m, hm⟩ : ∃ m, n = m + min k (n - k) := ⟨n - min k (n - k), by omega⟩
    have hrun := binomial_coeff_loop_run (K := K) m (min k (n - k))
    rw [← hm] at hrun
    rw [hrun]
    rcases Nat.le_total k (n - k) with h | h
    · rw [Nat.min_eq_left h]
    · rw [Nat.min_eq_right h, Nat.choose_symm hk]

/-- Witness of C1 at `n = 5`, `k = 2` over the rationals. -/
theorem binomial_coeff_exact_witness :
    (2 : Nat) ≤ 5 ∧ binomial_coeff ℚ ((5 : Nat) : Int) ((2 : Nat) : Int) = (Nat.choose 5 2 : ℚ) :=
  ⟨by decide, (binomial_coeff_exact ℚ 5 2 (by decide)).1⟩

/-- Claim C2: for all integers `n`, `k`, `binomial_coeff(n, k)` is `0` when `k < 0`
or `k > n`, and for `n ≥ 0` it is exactly `1` when `k = 0` or `k = n`. -/
theorem binomial_coeff_boundary (K : Type) [Field K] (n k : Int) :
    ((k < 0 ∨ k > n) → binomial_coeff K n k = 0)
    ∧ (0 ≤ n → (k = 0 ∨ k = n) → binomial_coeff K n k = 1) := by
  constructor
  · intro h
    unfold binomial_coeff
    rw [if_pos h]
  · intro hn h
    unfold binomial_coeff
    rw [if_neg (by omega), if_pos h]

/-- Witness of C2: `k = 5 > n = 3` gives `0`, and `k = n = 3` gives `1`. -/
theorem binomial_coeff_boundary_witness :
    binomial_coeff ℚ 3 5 = 0 ∧ binomial_coeff ℚ 3 3 = 1 :=
  ⟨(binomial_coeff_boundary ℚ 3 5).1 (by decide),
   (binomial_coeff_boundary ℚ 3 3).2 (by decide) (by decide)⟩

/-- Claim C3: for `n ≥ 0` and `0 ≤ k ≤ n` the two computed values
`binomial_coeff(n, k)` and `binomial_coeff(n, n - k)` are equal. -/
theorem binomial_coeff_symm (K : Type) [Field K] (n k : Int) (h0 : 0 ≤ k) (hk : k ≤ n) :
    binomial_coeff K n k = binomial_coeff K n (n - k) := by
  by_cases hb : k = 0 ∨ k = n
  · have hb2 : n - k = 0 ∨ n - k = n := by omega
    rw [binomial_coeff_edge n k h0 hk hb, binomial_coeff_edge n (n - k) (by omega) (by omega) hb2]
  · have hb2 : ¬ (n - k = 0 ∨ n - k = n) := by omega
    rw [binomial_coeff_inner n k h0 hk hb,
      binomial_coeff_inner n (n - k) (by omega) (by omega) hb2]
    by_cases hgt : k > n - k
    · have h2 : ¬ (n - k > n - (n - k)) := by omega
      rw [if_pos hgt, if_neg h2]
    · by_cases hlt : n - k > n - (n - k)
      · have e : n - (n - k) = k := by omega
        rw [if_neg hgt, if_pos hlt, e]
      · have e : n - k = k := by omega
        rw [if_neg hgt, if_neg hlt, e]

/-- Witness of C3 at `n = 7`, `k = 2`. -/
theorem binomial_coeff_symm_witness :
    binomial_coeff ℚ 7 2 = binomial_coeff ℚ 7 (7 - 2) :=
  binomial_coeff_symm ℚ 7 2 (by decide) (by decide)

/-- Claim C4: for every `n ≥ 0` the values `binomial_coeff(n, k)`, `k = 0 .. n`,
sum to `2 ^ n` in exact arithmetic. -/
theorem binomial_coeff_row_sum (K : Type) [Field K] [CharZero K] (n : Nat) :
    (∑ k in Finset.range (n + 1), binomial_coeff K (n : Int) (k : Int)) = (2 : K) ^ n :=
  sum_binomial_coeff n

/-- Witness of C4 at `n = 4` over the rationals. -/
theorem binomial_coeff_row_sum_witness :
    (∑ k in Finset.range (4 + 1), binomial_coeff ℚ ((4 : Nat) : Int) (k : Int)) = (2 : ℚ) ^ 4 :=
  binomial_coeff_row_sum ℚ 4

/-- Claim C5: for every `n ≥ 0`, `binomial_distr(n)` returns a sequence of length
`n + 1` whose entry `k` (`0 ≤ k ≤ n`) is `binomial_coeff(n, k) / 2^n`; in particular
`binomial_distr(1) = [1/2, 1/2]` exactly. -/
theorem binomial_distr_entries (K : Type) [Field K] (n : Nat) :
    (∃ p : List K, binomial_distr K (n : Int) = .ok p ∧ p.length = n + 1
      ∧ ∀ k : Nat, k ≤ n → p[k]? = some (binomial_coeff K (n : Int) (k : Int) / (2 : K) ^ n))
    ∧ binomial_distr K 1 = .ok [1 / 2, 1 / 2] := by
  constructor
  · refine ⟨_, binomial_distr_eq_map n, by simp, ?_⟩
    intro k hk
    rw [List.getElem?_map, List.getElem?_range (by omega), zpow_natCast]
    rfl
  · have h := binomial_distr_eq_map (K := K) 1
    have e0 : binomial_coeff K 1 0 = 1 := binomial_coeff_edge 1 0 (by decide) (by decide) (by decide)
    have e1 : binomial_coeff K 1 1 = 1 := binomial_coeff_edge 1 1 (by decide) (by decide) (by decide)
    simpa [List.range_succ, e0, e1] using h

/-- Witness of C5 at `n = 3`, `k = 2` over the rationals. -/
theorem binomial_distr_entries_witness :
    ∃ p : List ℚ, binomial_distr ℚ ((3 : Nat) : Int) = .ok p ∧ p.length = 3 + 1
      ∧ p[2]? = some (binomial_coeff ℚ ((3 : Nat) : Int) ((2 : Nat) : Int) / (2 : ℚ) ^ 3) := by
  obtain ⟨p, h1, h2, h3⟩ := (binomial_distr_entries ℚ 3).1
  exact ⟨p, h1, h2, h3 2 (by decide)⟩

/-- Claim C6: for every `n ≥ 0` the entries of `binomial_distr(n)` are non-negative
and sum to exactly `1` in exact arithmetic: a probability mass function on `0 .. n`. -/
theorem binomial_distr_pmf (K : Type) [LinearOrderedField K] (n : Nat) :
    ∃ p : List K, binomial_distr K (n : Int) = .ok p ∧ p.length = n + 1
      ∧ p.sum = 1 ∧ ∀ x ∈ p, 0 ≤ x := by
  refine ⟨_, binomial_distr_eq_map n, by simp, ?_, ?_⟩
  · rw [sum_map_range_eq, ← Finset.sum_div, sum_binomial_coeff, zpow_natCast]
    exact div_self (pow_ne_zero n two_ne_zero)
  · intro x hx
    rw [List.mem_map] at hx
    obtain ⟨k, hk, rfl⟩ := hx
    rw [List.mem_range] at hk
    rw [binomial_coeff_eq_choose n k (by omega)]
    exact div_nonneg (Nat.cast_nonneg _) (zpow_nonneg (by norm_num) _)

/-- Claim C7: for sequences `a`, `b` of one non-zero length `m`,
`mean_squared_error(a, b)` returns `(1/m) * Σ_{i<m} (a[i] - b[i])^2`, a quotient
by a non-zero `m`. -/
theorem mean_squared_error_formula (K : Type) [Field K] [CharZero K] (a b : List K) (m : Nat)
    (ha : a.length = m) (hb : b.length = m) (hm : m ≠ 0) :
    mean_squared_error a b
      = .ok ((1 / (m : K)) * ∑ i : Fin m,
          (a.get ⟨i.1, lt_of_lt_of_eq i.isLt ha.symm⟩
            - b.get ⟨i.1, lt_of_lt_of_eq i.isLt hb.symm⟩) ^ 2)
    ∧ (m : K) ≠ 0 := by
  refine ⟨?_, Nat.cast_ne_zero.mpr hm⟩
  rw [mean_squared_error_eq a b (ha.trans hb.symm)]
  subst ha
  rw [Finset.sum_range, div_eq_mul_one_div, mul_comm]
  congr 2
  apply Finset.sum_congr rfl
  intro i _
  rw [List.getD_eq_getElem a 0 i.isLt, List.getD_eq_getElem b 0 (lt_of_lt_of_eq i.isLt hb.symm),
    pow_two]
  rfl

/-- Witness of C7 on `a = [1, 2, 3]`, `b = [1, 1, 1]`. -/
theorem mean_squared_error_formula_witness :
    mean_squared_error [1, 2, (3 : ℚ)] [1, 1, 1]
      = .ok ((1 / ((3 : Nat) : ℚ)) * ∑ i : Fin 3,
          ([1, 2, (3 : ℚ)].get ⟨i.1, lt_of_lt_of_eq i.isLt (Eq.symm rfl)⟩
            - [1, 1, (1 : ℚ)].get ⟨i.1, lt_of_lt_of_eq i.isLt (Eq.symm rfl)⟩) ^ 2) :=
  (mean_squared_error_formula ℚ [1, 2, 3] [1, 1, 1] 3 rfl rfl (by decide)).1

/-- Claim C8: `mean_squared_error(a, b)` ends the computation with `exit(1)` exactly
when the lengths differ, that is its only failure, and it returns a value exactly
when the lengths are equal. -/
theorem mean_squared_error_exit_iff (K : Type) [Field K] (a b : List K) :
    (mean_squared_error a b = .error (.exit 1) ↔ a.length ≠ b.length)
    ∧ ((∃ v : K, mean_squared_error a b = .ok v) ↔ a.length = b.length)
    ∧ (∀ e : Failure, mean_squared_error a b = .error e → e = .exit 1) := by
  by_cases h : a.length = b.length
  · have hv := mean_squared_error_eq a b h
    refine ⟨?_, ?_, ?_⟩
    · rw [hv]
      constructor
      · intro hc; cases hc
      · intro hc; exact absurd h hc
    · exact ⟨fun _ => h, fun _ => ⟨_, hv⟩⟩
    · intro e he
      rw [hv] at he
      cases he
  · have hv := mean_squared_error_ne a b h
    refine ⟨?_, ?_, ?_⟩
    · exact ⟨fun _ => h, fun _ => hv⟩
    · rw [hv]
      constructor
      · rintro ⟨v, hc⟩; cases hc
      · intro hc; exact absurd hc h
    · intro e he
      rw [hv] at he
      cases he
      rfl

/-- Witness of C8: lengths `3` and `2` end in `exit(1)`; lengths `2` and `2` return. -/
theorem mean_squared_error_exit_iff_witness :
    mean_squared_error [1, 2, (3 : ℚ)] [1, 1] = .error (.exit 1)
    ∧ ∃ v : ℚ, mean_squared_error [1, (2 : ℚ)] [1, 1] = .ok v :=
  ⟨(mean_squared_error_exit_iff ℚ [1, 2, 3] [1, 1]).1.mpr (by decide),
   (mean_squared_error_exit_iff ℚ [1, 2] [1, 1]).2.1.mpr rfl⟩

/-- Claim C9: for a distribution `a` of length at least `1`,
`mean_squared_error(a, a)` returns `0`. -/
theorem mean_squared_error_self (K : Type) [Field K] (a : List K) (_h : 1 ≤ a.length) :
    mean_squared_error a a = .ok 0 := by
  rw [mean_squared_error_eq a a rfl]
  congr 1
  have hz : ∀ i ∈ Finset.range a.length,
      (a.getD i 0 - a.getD i 0) * (a.getD i 0 - a.getD i 0) = 0 := by
    intro i _
    rw [sub_self, mul_zero]
  rw [Finset.sum_eq_zero hz, zero_div]

/-- Witness of C9 on `a = [1/4, 1/2, 1/4]`. -/
theorem mean_squared_error_self_witness :
    1 ≤ [1 / 4, 1 / 2, (1 / 4 : ℚ)].length
    ∧ mean_squared_error [1 / 4, 1 / 2, (1 / 4 : ℚ)] [1 / 4, 1 / 2, 1 / 4] = .ok 0 :=
  ⟨by decide, mean_squared_error_self ℚ [1 / 4, 1 / 2, 1 / 4] (by decide)⟩

/-- Claim C10: for sequences of equal length `mean_squared_error(a, b)` and
`mean_squared_error(b, a)` return the same value; for sequences of different
lengths both orders end in `exit(1)`. -/
theorem mean_squared_error_comm (K : Type) [Field K] (a b : List K) :
    (a.length = b.length →
      ∃ v : K, mean_squared_error a b = .ok v ∧ mean_squared_error b a = .ok v)
    ∧ (a.length ≠ b.length →
      mean_squared_error a b = .error (.exit 1) ∧ mean_squared_error b a = .error (.exit 1)) := by
  constructor
  · intro h
    refine ⟨_, mean_squared_error_eq a b h, ?_⟩
    rw [mean_squared_error_eq b a h.symm, h]
    congr 2
    apply Finset.sum_congr rfl
    intro i _
    ring
  · intro h
    exact ⟨mean_squared_error_ne a b h, mean_squared_error_ne b a (Ne.symm h)⟩

/-- Witness of C10: one pair of equal lengths, one pair of different lengths. -/
theorem mean_squared_error_comm_witness :
    (∃ v : ℚ, mean_squared_error [1, (2 : ℚ)] [3, 5] = .ok v
      ∧ mean_squared_error [3, (5 : ℚ)] [1, 2] = .ok v)
    ∧ (mean_squared_error [1, (2 : ℚ)] [3] = .error (.exit 1)
      ∧ mean_squared_error [(3 : ℚ)] [1, 2] = .error (.exit 1)) :=
  ⟨(mean_squared_error_comm ℚ [1, 2] [3, 5]).1 rfl,
   (mean_squared_error_comm ℚ [1, 2] [3]).2 (by decide)⟩

/-! ## Counted loops -/

section Loops

/-- A counted loop whose test fails at entry returns its state. -/
theorem for_loop_done {σ : Type} (hi : Int) (body : Int → σ → σ) (i : Int) (s : σ)
    (h : hi ≤ i) : for_loop hi body i s = s := by
  rw [for_loop, if_neg (by omega)]

/-- Invariant rule of a counted loop: an invariant that holds at entry and is kept by
every iteration holds at exit, with the counter at the bound. -/
theorem for_loop_invariant {σ : Type} (P : Nat → σ → Prop) (hi : Nat) (body : Int → σ → σ)
    (hstep : ∀ (i : Nat) (s : σ), i < hi → P i s → P (i + 1) (body (i : Int) s)) :
    ∀ (d j : Nat) (s : σ), j + d = hi → P j s →
      P hi (for_loop (hi : Int) body (j : Int) s) := by
  intro d
  induction d with
  | zero =>
    intro j s hj hP
    have hjn : j = hi := by omega
    subst hjn
    rw [for_loop_done _ _ _ _ (le_refl _)]
    exact hP
  | succ d ih =>
    intro j s hj hP
    rw [for_loop, if_pos (by omega)]
    have hi1 : ((j : Int) + 1) = ((j + 1 : Nat) : Int) := by push_cast; ring
    rw [hi1]
    exact ih (j + 1) _ (by omega) (hstep j s (by omega) hP)

/-- A loop `for (k = 0; k < m; ++k) p[k] = h(k, p[k]);` over a vector of size `m`
returns the vector of the values `h(k, p[k])`. -/
theorem for_loop_set_eq_map {α : Type} (d0 : α) (h : Int → α → α) (m : Nat) (p : List α)
    (hp : p.length = m) :
    for_loop (m : Int) (fun k q => q.set k.toNat (h k (q.getD k.toNat d0))) 0 p
      = (List.range m).map (fun i : Nat => h (i : Int) (p.getD i d0)) := by
  have key := for_loop_invariant
    (fun (j : Nat) (q : List α) => q.length = m ∧ ∀ i : Nat,
      q[i]? = if i < j then some (h (i : Int) (p.getD i d0)) else p[i]?)
    m (fun k q => q.set k.toNat (h k (q.getD k.toNat d0)))
    (by
      intro j q hj hq
      obtain ⟨hlen, hget⟩ := hq
      refine ⟨by rw [List.length_set]; exact hlen, ?_⟩
      intro i
      beta_reduce
      rw [Int.toNat_ofNat, List.getElem?_set, hlen]
      have hqj : q.getD j d0 = p.getD j d0 := by
        rw [List.getD_eq_getElem?_getD, List.getD_eq_getElem?_getD, hget j, if_neg (by omega)]
      by_cases hij : j = i
      · subst hij
        rw [if_pos rfl, if_pos hj, if_pos (by omega), hqj]
      · rw [if_neg hij, hget i]
        by_cases hlt : i < j
        · rw [if_pos hlt, if_pos (by omega)]
        · rw [if_neg hlt, if_neg (by omega)])
    m 0 p (by omega) ⟨hp, fun i => by rw [if_neg (by omega)]⟩
  obtain ⟨hlen, hget⟩ := key
  apply List.ext_getElem?
  intro i
  have hz : ((0 : Nat) : Int) = 0 := rfl
  rw [hz] at hget
  rw [hget i, List.getElem?_map]
  by_cases hlt : i < m
  · rw [if_pos hlt, List.getElem?_range hlt]
    rfl
  · rw [if_neg hlt, List.getElem?_eq_none (by omega), List.getElem?_eq_none (by simpa using hlt)]
    rfl

/-- A loop `for (k = 0; k <= n; ++k) p[k] = g(k);` over a vector of size `n + 1`
returns the vector of the values `g(k)`. -/
theorem for_loop_fill_eq_map {α : Type} (g : Int → α) (n : Nat) (p : List α)
    (hp : p.length = n + 1) :
    for_loop ((n : Int) + 1) (fun k q => q.set k.toNat (g k)) 0 p
      = (List.range (n + 1)).map (fun i : Nat => g (i : Int)) := by
  have hn : ((n : Int) + 1) = ((n + 1 : Nat) : Int) := by push_cast; ring
  rw [hn]
  exact for_loop_set_eq_map (g 0) (fun k _ => g k) (n + 1) p hp

/-- A counted loop from `0` to `hi` is the loop from `0` to `b ≤ hi` followed by the
loop from `b` to `hi`: the state at the entry of iteration `b` is the result of the
first `b` iterations. -/
theorem for_loop_split {σ : Type} (hi : Int) (body : Int → σ → σ) (b : Nat)
    (hb : (b : Int) ≤ hi) (s : σ) :
    for_loop hi body (b : Int) (for_loop (b : Int) body 0 s) = for_loop hi body 0 s := by
  have key := for_loop_invariant
    (fun (j : Nat) (t : σ) => for_loop hi body (j : Int) t = for_loop hi body 0 s)
    b body
    (by
      intro j t hj ht
      have hi1 : ((j : Int) + 1) = ((j + 1 : Nat) : Int) := by push_cast; ring
      rw [← ht]
      conv_rhs => rw [for_loop, if_pos (by omega)]
      rw [hi1])
    b 0 s (by omega) rfl
  exact key

end Loops

/-! ## The simulation -/

section Simulation

/-- Every ball makes between `0` and `n` right moves, whatever the coin outcomes and
the state of the generator. -/
theorem galton_board_ball_bounds (n : Nat) (flips : Nat → Bool) (pos : Nat) :
    0 ≤ (galton_board_ball (n : Int) flips pos).1
      ∧ (galton_board_ball (n : Int) flips pos).1 ≤ (n : Int) := by
  have key := for_loop_invariant
    (fun (step : Nat) (s : Int × Nat) => 0 ≤ s.1 ∧ s.1 ≤ (step : Int))
    n (fun _ s => (if flips s.2 then s.1 + 1 else s.1, s.2 + 1))
    (by
      intro step s _ hs
      obtain ⟨h0, h1⟩ := hs
      beta_reduce
      by_cases hf : flips s.2 = true
      · rw [if_pos hf]
        constructor
        · show 0 ≤ s.1 + 1
          omega
        · show s.1 + 1 ≤ ((step + 1 : Nat) : Int)
          omega
      · rw [if_neg hf]
        constructor
        · exact h0
        · show s.1 ≤ ((step + 1 : Nat) : Int)
          omega)
    n 0 (0, pos) (by omega) ⟨le_refl _, le_refl _⟩
  exact key

/-- Incrementing one entry of a vector of integers adds `1` to the sum of its entries. -/
theorem sum_set_succ (l : List Int) :
    ∀ (i : Nat), i < l.length → (l.set i (l.getD i 0 + 1)).sum = l.sum + 1 := by
  induction l with
  | nil => intro i hi; simp at hi
  | cons a l ih =>
    intro i hi
    cases i with
    | zero => simp [List.set, List.getD]; ring
    | succ i =>
      have hi2 : i < l.length := by simpa using hi
      have := ih i hi2
      simp only [List.set_cons_succ, List.sum_cons, List.getD_cons_succ, this]
      ring

/-- Invariant of the simulation loop: after the balls `0 .. N - 1` the tally vector
still has `n + 1` entries, all of them non-negative, and they sum to `N`. -/
theorem galton_board_balls_invariant (n N : Nat) (flips : Nat → Bool) :
    (galton_board_counts (n : Int) (N : Int) flips).length = n + 1
      ∧ (∀ c ∈ galton_board_counts (n : Int) (N : Int) flips, 0 ≤ c)
      ∧ (galton_board_counts (n : Int) (N : Int) flips).sum = (N : Int) := by
  have hn : ((n : Int) + 1).toNat = n + 1 := by omega
  have key := for_loop_invariant
    (fun (b : Nat) (s : List Int × Nat) =>
      s.1.length = n + 1 ∧ (∀ c ∈ s.1, 0 ≤ c) ∧ s.1.sum = (b : Int))
    N (fun _ s =>
      let ball := galton_board_ball (n : Int) flips s.2
      (s.1.set ball.1.toNat (s.1.getD ball.1.toNat 0 + 1), ball.2))
    (by
      intro b s _ hs
      obtain ⟨hlen, hpos, hsum⟩ := hs
      obtain ⟨hb0, hb1⟩ := galton_board_ball_bounds n flips s.2
      have hidx : (galton_board_ball (n : Int) flips s.2).1.toNat < s.1.length := by
        rw [hlen]; omega
      refine ⟨?_, ?_, ?_⟩
      · show (s.1.set _ _).length = n + 1
        rw [List.length_set, hlen]
      · intro c hc
        rcases List.mem_or_eq_of_mem_set hc with hc | hc
        · exact hpos c hc
        · rw [hc, List.getD_eq_getElem _ _ hidx]
          have := hpos _ (List.getElem_mem hidx)
          omega
      · show (s.1.set _ _).sum = ((b + 1 : Nat) : Int)
        rw [sum_set_succ _ _ hidx, hsum]
        push_cast
        ring)
    N 0 (List.replicate (n + 1) 0, 0) (by omega)
    ⟨by simp, by intro c hc; rw [List.eq_of_mem_replicate hc], by simp⟩
  unfold galton_board_counts galton_board_balls
  rw [hn]
  exact key

end Simulation

/-! ## The result of one experiment -/

section Experiment

variable {K : Type} [Field K]

/-- The vector returned by `normal_distr(n)` for `n ≥ 0`, entry by entry. -/
theorem normal_distr_eq_map (M : LongDoubleMath K) (n : Nat) :
    normal_distr M (n : Int)
      = .ok ((List.range (n + 1)).map (fun k : Nat => normal_pdf M (n : Int) (k : Int))) := by
  have hn : ((n : Int) + 1).toNat = n + 1 := by omega
  unfold normal_distr
  rw [if_neg (by omega), hn,
    for_loop_fill_eq_map (fun k => normal_pdf M (n : Int) k) n _ (List.length_replicate _ _)]

/-- The observed distribution for `n ≥ 0`, entry by entry: `counts[k] / N`. -/
theorem galton_board_observed_eq_map (n : Nat) (N : Int) (counts : List Int) :
    galton_board_observed K (n : Int) N counts
      = (List.range (n + 1)).map
          (fun k : Nat => ((counts.getD k 0 : Int) : K) / ((N : Int) : K)) := by
  have hn : ((n : Int) + 1).toNat = n + 1 := by omega
  unfold galton_board_observed
  rw [hn, for_loop_fill_eq_map
    (fun k : Int => ((counts.getD k.toNat 0 : Int) : K) / ((N : Int) : K)) n _
    (List.length_replicate _ _)]
  rfl

/-- On an observed distribution of length `n + 1` the second half of `galton_board`
returns: the binomial and normal vectors have length `n + 1` too, so the three calls
of `mean_squared_error` return. -/
theorem galton_board_compare_ok (M : LongDoubleMath K) (n : Nat) (p : List K)
    (hp : p.length = n + 1) :
    ∃ (b q : List K) (v1 v2 v3 : K),
      binomial_distr K (n : Int) = .ok b ∧ normal_distr M (n : Int) = .ok q
      ∧ b.length = n + 1 ∧ q.length = n + 1
      ∧ mean_squared_error p b = .ok v1 ∧ mean_squared_error p q = .ok v2
      ∧ mean_squared_error b q = .ok v3
      ∧ galton_board_compare M (n : Int) p = .ok ⟨p, b, q, v1, v2, v3⟩ := by
  have hb := binomial_distr_eq_map (K := K) n
  have hq := normal_distr_eq_map M n
  have hbl : ((List.range (n + 1)).map
      (fun k : Nat => binomial_coeff K (n : Int) (k : Int) / (2 : K) ^ (n : Int))).length
        = n + 1 := by simp
  have hql : ((List.range (n + 1)).map
      (fun k : Nat => normal_pdf M (n : Int) (k : Int))).length = n + 1 := by simp
  have h1 := mean_squared_error_eq p _ (hp.trans hbl.symm)
  have h2 := mean_squared_error_eq p _ (hp.trans hql.symm)
  have h3 := mean_squared_error_eq _ _ (hbl.trans hql.symm)
  refine ⟨_, _, _, _, _, hb, hq, hbl, hql, h1, h2, h3, ?_⟩
  unfold galton_board_compare
  simp only [hb, hq, h1, h2, h3]

/-- The length of the observed distribution built by `galton_board` is `n + 1`. -/
theorem galton_board_observed_length (n : Nat) (N : Int) (counts : List Int) :
    (galton_board_observed K (n : Int) N counts).length = n + 1 := by
  rw [galton_board_observed_eq_map]
  simp

end Experiment

/-! ## The driver -/

section Driver

variable {K : Type} [Field K]

/-- Reading entry `k < m` of a vector given entry by entry. -/
theorem getD_map_range {α : Type} (f : Nat → α) (m k : Nat) (d : α) (hk : k < m) :
    ((List.range m).map f).getD k d = f k := by
  rw [List.getD_eq_getElem _ _ (by simpa using hk)]
  simp

/-- A vector of length `m` is the vector of its entries. -/
theorem eq_map_range_getD {α : Type} (l : List α) (m : Nat) (d : α) (hl : l.length = m) :
    l = (List.range m).map (fun k => l.getD k d) := by
  apply List.ext_getElem?
  intro i
  rw [List.getElem?_map]
  by_cases hi : i < m
  · have hil : i < l.length := by omega
    rw [List.getElem?_range hi]
    show l[i]? = some (l.getD i d)
    rw [List.getD_eq_getElem l d hil, List.getElem?_eq_getElem hil]
  · rw [List.getElem?_eq_none (by omega), List.getElem?_eq_none (by simpa using hi)]
    rfl

/-- The repetition loop of `main` entered at `i = j`, when the calls of `galton_board`
of the iterations `j .. x - 1` return `r j, .., r (x - 1)`: no failure, the sums
grow by the contributions of these runs and `r` ends as the last of them. -/
theorem main_loop_spec (run : Nat → Except Failure (ExperimentResult K))
    (r : Nat → ExperimentResult K) (n x : Nat) (hrun : ∀ i : Nat, i < x → run i = .ok (r i)) :
    ∀ (d j : Nat) (st : DriverState K), j + d = x → st.avg_observed.length = n + 1 →
      main_loop run (n : Int) (x : Int) (j : Int) st
        = ({ avg_observed := (List.range (n + 1)).map (fun k : Nat =>
                st.avg_observed.getD k 0 + ∑ i in Finset.Ico j x, (r i).observed.getD k 0)
             sum_mse_ob_bin := st.sum_mse_ob_bin + ∑ i in Finset.Ico j x, (r i).mse_ob_bin
             sum_mse_ob_norm := st.sum_mse_ob_norm + ∑ i in Finset.Ico j x, (r i).mse_ob_norm
             r := if j < x then r (x - 1) else st.r
             runs := st.runs ++ (List.range' j d).map r }, none) := by
  intro d
  induction d with
  | zero =>
    intro j st hj hlen
    have hjx : j = x := by omega
    subst hjx
    rw [main_loop, if_neg (by omega)]
    have havg : st.avg_observed = (List.range (n + 1)).map (fun k : Nat =>
        st.avg_observed.getD k 0 + ∑ i in Finset.Ico j j, (r i).observed.getD k 0) := by
      simp only [Finset.Ico_self, Finset.sum_empty, add_zero]
      exact eq_map_range_getD _ _ _ hlen
    rw [← havg]
    simp
  | succ d ih =>
    intro j st hj hlen
    have hjx : j < x := by omega
    have hi1 : ((j : Int) + 1) = ((j + 1 : Nat) : Int) := by push_cast; ring
    have hn1 : ((n : Int) + 1) = ((n + 1 : Nat) : Int) := by push_cast; ring
    rw [main_loop, if_pos (by omega), Int.toNat_ofNat, hrun j hjx]
    simp only []
    rw [hi1, hn1, for_loop_set_eq_map (0 : K)
      (fun k v => v + (r j).observed.getD k.toNat 0) (n + 1) st.avg_observed hlen]
    rw [ih (j + 1) _ (by omega) (by simp)]
    simp only [Prod.mk.injEq, and_true]
    have e1 : (List.range (n + 1)).map (fun k : Nat =>
          ((List.range (n + 1)).map (fun i : Nat =>
            (fun (k : Int) (v : K) => v + (r j).observed.getD k.toNat 0) (i : Int)
              (st.avg_observed.getD i 0))).getD k 0
            + ∑ i in Finset.Ico (j + 1) x, (r i).observed.getD k 0)
        = (List.range (n + 1)).map (fun k : Nat =>
            st.avg_observed.getD k 0 + ∑ i in Finset.Ico j x, (r i).observed.getD k 0) := by
      apply List.map_congr_left
      intro k hk
      rw [List.mem_range] at hk
      rw [getD_map_range _ _ _ _ hk, Finset.sum_eq_sum_Ico_succ_bot hjx]
      simp only [Int.toNat_ofNat]
      ring
    have e2 : ∀ f : Nat → K, ∀ a : K,
        a + f j + ∑ i in Finset.Ico (j + 1) x, f i = a + ∑ i in Finset.Ico j x, f i := by
      intro f a
      rw [Finset.sum_eq_sum_Ico_succ_bot hjx, add_assoc]
    have e3 : (if j + 1 < x then r (x - 1) else r j) = (if j < x then r (x - 1) else st.r) := by
      rw [if_pos hjx]
      by_cases h : j + 1 < x
      · rw [if_pos h]
      · rw [if_neg h]
        have : j = x - 1 := by omega
        rw [← this]
    rw [e1, e2 (fun i => (r i).mse_ob_bin), e2 (fun i => (r i).mse_ob_norm), e3]
    simp [List.range'_succ]

/-- The outcome of `main` after its checks when the `x > 0` calls of `galton_board`
return `r 0, .., r (x - 1)`: all of them are run, and the report holds the averages
over the runs and the theoretical values of the last run. -/
theorem main_run_eq (run : Nat → Except Failure (ExperimentResult K))
    (r : Nat → ExperimentResult K) (n x : Nat) (hx : 0 < x)
    (hrun : ∀ i : Nat, i < x → run i = .ok (r i)) :
    main_run run (n : Int) (x : Int)
      = ⟨(List.range x).map r, .ok
          { avg_observed := (List.range (n + 1)).map (fun k : Nat =>
              (∑ i in Finset.range x, (r i).observed.getD k 0) / (x : K))
            binom := (r (x - 1)).expected_binom
            norm := (r (x - 1)).expected_normal
            avg_mse_ob_bin := (∑ i in Finset.range x, (r i).mse_ob_bin) / (x : K)
            avg_mse_ob_norm := (∑ i in Finset.range x, (r i).mse_ob_norm) / (x : K)
            mse_bin_norm := (r (x - 1)).mse_bin_norm }⟩ := by
  have hn : ((n : Int) + 1).toNat = n + 1 := by omega
  have hn1 : ((n : Int) + 1) = ((n + 1 : Nat) : Int) := by push_cast; ring
  have h0 := main_loop_spec run r n x hrun x 0
    ⟨List.replicate (n + 1) 0, 0, 0, ⟨[], [], [], 0, 0, 0⟩, []⟩ (by omega) (by simp)
  rw [Nat.cast_zero] at h0
  unfold main_run
  rw [hn, h0]
  simp only [List.nil_append, zero_add, if_pos hx, Nat.Ico_zero_eq_range, Int.cast_natCast]
  rw [hn1, for_loop_set_eq_map (0 : K) (fun _ v => v / (x : K)) (n + 1) _ (by simp),
    ← List.range_eq_range']
  congr 3
  apply List.map_congr_left
  intro k hk
  rw [List.mem_range] at hk
  rw [getD_map_range _ _ _ _ hk, List.getD_eq_getElem _ _ (by simpa using hk)]
  simp

/-- For `n ≥ 0` the function `galton_board` is its second half applied to the observed
distribution of its first half. -/
theorem galton_board_eq_compare (M : LongDoubleMath K) (n : Nat) (N : Int)
    (flips : Nat → Bool) :
    galton_board M (n : Int) N flips
      = galton_board_compare M (n : Int)
          (galton_board_observed K (n : Int) N (galton_board_counts (n : Int) N flips)) := by
  unfold galton_board
  rw [if_neg (by omega)]

/-- For `0 ≤ n < INT_MAX` the sum `n + 1` does not wrap. -/
theorem int_wrap_succ (n : Int) (h0 : 0 ≤ n) (h1 : n < INT_MAX) : int_wrap (n + 1) = n + 1 := by
  unfold INT_MAX at h1
  unfold int_wrap
  omega

/-- At `n = INT_MAX` the sum `n + 1` wraps to the smallest `int`. -/
theorem int_wrap_succ_max : int_wrap (INT_MAX + 1) = -2147483648 := by
  unfold int_wrap INT_MAX
  decide

/-- After its two checks, when the size `n + 1` of `avg_observed` is not negative,
`main` is `main_run` on the calls of `galton_board`. -/
theorem main_eq_main_run (M : LongDoubleMath K) (n N x : Int) (flips : Nat → Nat → Bool)
    (hn : 0 < n) (hN : 0 < N) (hx : 0 < x) (hw : ¬ int_wrap (n + 1) < 0) :
    main M 4 n N x flips = main_run (fun i => galton_board M n N (flips i)) n x := by
  unfold main
  rw [if_neg (by decide), if_neg (by omega), if_neg hw]

/-- For `n ≥ 0` the function `galton_board` returns: its three vectors have length
`n + 1`, so each of the three calls of `mean_squared_error` returns a value. -/
theorem galton_board_ok (M : LongDoubleMath K) (n : Nat) (N : Int) (flips : Nat → Bool) :
    ∃ (b q : List K) (v1 v2 v3 : K),
      binomial_distr K (n : Int) = .ok b ∧ normal_distr M (n : Int) = .ok q
      ∧ b.length = n + 1 ∧ q.length = n + 1
      ∧ mean_squared_error
          (galton_board_observed K (n : Int) N (galton_board_counts (n : Int) N flips)) b
            = .ok v1
      ∧ mean_squared_error
          (galton_board_observed K (n : Int) N (galton_board_counts (n : Int) N flips)) q
            = .ok v2
      ∧ mean_squared_error b q = .ok v3
      ∧ galton_board M (n : Int) N flips
          = .ok ⟨galton_board_observed K (n : Int) N (galton_board_counts (n : Int) N flips),
              b, q, v1, v2, v3⟩ := by
  rw [galton_board_eq_compare]
  exact galton_board_compare_ok M n _ (galton_board_observed_length n N _)

/-- Comparing a vector with itself gives the error `0`. -/
theorem mean_squared_error_refl (a : List K) : mean_squared_error a a = .ok 0 := by
  rw [mean_squared_error_eq a a rfl]
  congr 1
  have hz : ∀ i ∈ Finset.range a.length,
      (a.getD i 0 - a.getD i 0) * (a.getD i 0 - a.getD i 0) = 0 := by
    intro i _
    rw [sub_self, mul_zero]
  rw [Finset.sum_eq_zero hz, zero_div]

/-- With valid arguments and a size `n + 1` that is not negative, every call of
`galton_board` made by `main` returns, so `main` is `main_run` on the returned results. -/
theorem main_valid (M : LongDoubleMath K) (n N x : Nat) (flips : Nat → Nat → Bool)
    (hn : 0 < n) (hN : 0 < N) (hx : 0 < x) (hw : ¬ int_wrap ((n : Int) + 1) < 0) :
    ∃ r : Nat → ExperimentResult K,
      (∀ i : Nat, galton_board M (n : Int) (N : Int) (flips i) = .ok (r i))
      ∧ main M 4 (n : Int) (N : Int) (x : Int) flips
        = ⟨(List.range x).map r, .ok
          { avg_observed := (List.range (n + 1)).map (fun k : Nat =>
              (∑ i in Finset.range x, (r i).observed.getD k 0) / (x : K))
            binom := (r (x - 1)).expected_binom
            norm := (r (x - 1)).expected_normal
            avg_mse_ob_bin := (∑ i in Finset.range x, (r i).mse_ob_bin) / (x : K)
            avg_mse_ob_norm := (∑ i in Finset.range x, (r i).mse_ob_norm) / (x : K)
            mse_bin_norm := (r (x - 1)).mse_bin_norm }⟩ := by
  have hex : ∀ i : Nat, ∃ ri : ExperimentResult K,
      galton_board M (n : Int) (N : Int) (flips i) = .ok ri := by
    intro i
    obtain ⟨b, q, v1, v2, v3, -, -, -, -, -, -, -, h⟩ := galton_board_ok M n (N : Int) (flips i)
    exact ⟨_, h⟩
  refine ⟨fun i => Classical.choose (hex i), fun i => Classical.choose_spec (hex i), ?_⟩
  rw [main_eq_main_run M _ _ _ flips (by omega) (by omega) (by omega) hw]
  exact main_run_eq _ _ n x hx (fun i _ => Classical.choose_spec (hex i))

end Driver

/-- The exit status of `main` on all inputs: status `1` exactly when `argc ≠ 4` or one
of `n`, `N`, `x` is `≤ 0`, and then no simulation is run; with valid arguments and
`n < INT_MAX` it runs `x` simulations and exits with status `0`; with valid arguments
and `n = INT_MAX` the process is aborted before any simulation. -/
theorem main_status_spec {K : Type} [Field K] (M : LongDoubleMath K) (argc n N x : Int)
    (flips : Nat → Nat → Bool) :
    ((main M argc n N x flips).status = some 1 ↔ (argc ≠ 4 ∨ n ≤ 0 ∨ N ≤ 0 ∨ x ≤ 0))
    ∧ ((argc ≠ 4 ∨ n ≤ 0 ∨ N ≤ 0 ∨ x ≤ 0) → (main M argc n N x flips).runs = [])
    ∧ (¬ (argc ≠ 4 ∨ n ≤ 0 ∨ N ≤ 0 ∨ x ≤ 0) → n < INT_MAX →
        (main M argc n N x flips).status = some 0
          ∧ ((main M argc n N x flips).runs.length : Int) = x)
    ∧ (¬ (argc ≠ 4 ∨ n ≤ 0 ∨ N ≤ 0 ∨ x ≤ 0) → n = INT_MAX →
        (main M argc n N x flips).status = none ∧ (main M argc n N x flips).runs = []) := by
  have hbad : (argc ≠ 4 ∨ n ≤ 0 ∨ N ≤ 0 ∨ x ≤ 0) →
      main M argc n N x flips = ⟨[], .error (.exit 1)⟩ := by
    intro h
    unfold main
    by_cases ha : argc ≠ 4
    · rw [if_pos ha]
    · rw [if_neg ha, if_pos (by tauto)]
  have hwrap : ¬ (argc ≠ 4 ∨ n ≤ 0 ∨ N ≤ 0 ∨ x ≤ 0) → int_wrap (n + 1) < 0 →
      main M argc n N x flips = ⟨[], .error .length_error⟩ := by
    intro h hw
    unfold main
    rw [if_neg (fun hc => h (Or.inl hc)), if_neg (fun hc => h (Or.inr hc)), if_pos hw]
  have hrun : ¬ (argc ≠ 4 ∨ n ≤ 0 ∨ N ≤ 0 ∨ x ≤ 0) → ¬ int_wrap (n + 1) < 0 →
      (main M argc n N x flips).status = some 0
        ∧ ((main M argc n N x flips).runs.length : Int) = x := by
    intro h hw
    have ha : argc = 4 := by
      by_contra hc
      exact h (Or.inl hc)
    have hn : 0 < n := by
      by_contra hc
      exact h (Or.inr (Or.inl (by omega)))
    have hN : 0 < N := by
      by_contra hc
      exact h (Or.inr (Or.inr (Or.inl (by omega))))
    have hx : 0 < x := by
      by_contra hc
      exact h (Or.inr (Or.inr (Or.inr (by omega))))
    obtain ⟨n1, rfl⟩ := Int.eq_ofNat_of_zero_le (le_of_lt hn)
    obtain ⟨N1, rfl⟩ := Int.eq_ofNat_of_zero_le (le_of_lt hN)
    obtain ⟨x1, rfl⟩ := Int.eq_ofNat_of_zero_le (le_of_lt hx)
    subst ha
    obtain ⟨r, -, hmain⟩ := main_valid M n1 N1 x1 flips (by omega) (by omega) (by omega) hw
    rw [hmain]
    constructor
    · rfl
    · simp
  refine ⟨?_, ?_, ?_, ?_⟩
  · constructor
    · intro hs
      by_contra hc
      by_cases hw : int_wrap (n + 1) < 0
      · rw [hwrap hc hw] at hs
        cases hs
      · rw [(hrun hc hw).1] at hs
        cases hs
    · intro h
      rw [hbad h]
      rfl
  · intro h
    rw [hbad h]
  · intro h hlt
    have hn : 0 ≤ n := by
      by_contra hc
      exact h (Or.inr (Or.inl (by omega)))
    have hw : ¬ int_wrap (n + 1) < 0 := by
      rw [int_wrap_succ n hn hlt]
      omega
    exact hrun h hw
  · intro h he
    have hw : int_wrap (n + 1) < 0 := by
      rw [he, int_wrap_succ_max]
      decide
    rw [hwrap h hw]
    exact ⟨rfl, rfl⟩

/-- Claim C11, the code at the failing input: with `argc = 4`, `n = 2147483647`,
`N = 1`, `x = 1` no argument is rejected by the two checks (`argc = 4` and all three
values are positive), yet `n + 1` overflows `int`, the constructor of `avg_observed`
throws and the process is aborted: no simulation is run and the exit status is not
`0`, whereas the claim has `x` simulations and status `0` in every case the checks
let through. -/
theorem main_int_max_aborts (K : Type) [Field K] (M : LongDoubleMath K)
    (flips : Nat → Nat → Bool) :
    ¬ ((4 : Int) ≠ 4 ∨ (2147483647 : Int) ≤ 0 ∨ (1 : Int) ≤ 0 ∨ (1 : Int) ≤ 0)
    ∧ (main M 4 2147483647 1 1 flips).result = .error .length_error
    ∧ (main M 4 2147483647 1 1 flips).runs = []
    ∧ (main M 4 2147483647 1 1 flips).status = none
    ∧ (main M 4 2147483647 1 1 flips).status ≠ some 0
    ∧ (main M 4 2147483647 1 1 flips).status ≠ some 1 := by
  have hw : int_wrap (2147483647 + 1) < 0 := by
    unfold int_wrap
    decide
  have hmain : main M 4 2147483647 1 1 flips = ⟨[], .error .length_error⟩ := by
    unfold main
    rw [if_neg (by decide), if_neg (by decide), if_pos hw]
  rw [hmain]
  refine ⟨by decide, rfl, rfl, rfl, ?_, ?_⟩
  · intro h
    cases h
  · intro h
    cases h

/-- Claim C12: for every `n ≥ 0`, every `N` and all coin outcomes, `galton_board`
returns a result whose observed, binomial and normal distributions all have length
`n + 1`, and its three calls of `mean_squared_error` return the three stored errors:
none of them reaches the `exit(1)` of a length mismatch. -/
theorem galton_board_lengths (K : Type) [Field K] (M : LongDoubleMath K) (n : Nat) (N : Int)
    (flips : Nat → Bool) :
    ∃ r : ExperimentResult K, galton_board M (n : Int) N flips = .ok r
      ∧ r.observed.length = n + 1 ∧ r.expected_binom.length = n + 1
      ∧ r.expected_normal.length = n + 1
      ∧ binomial_distr K (n : Int) = .ok r.expected_binom
      ∧ normal_distr M (n : Int) = .ok r.expected_normal
      ∧ mean_squared_error r.observed r.expected_binom = .ok r.mse_ob_bin
      ∧ mean_squared_error r.observed r.expected_normal = .ok r.mse_ob_norm
      ∧ mean_squared_error r.expected_binom r.expected_normal = .ok r.mse_bin_norm := by
  obtain ⟨b, q, v1, v2, v3, hb, hq, hbl, hql, h1, h2, h3, h⟩ := galton_board_ok M n N flips
  exact ⟨_, h, galton_board_observed_length n N _, hbl, hql, hb, hq, h1, h2, h3⟩

/-- Claim C13: for `n ≥ 0`, `N ≥ 0` and all coin outcomes, at every ball `b < N` of the
simulation loop the tally vector has `n + 1` entries and the number of right moves of
the ball lies in `[0, n]`, so `counts[right_moves]` is an entry of the vector.  The
state at ball `b` is the one reached by the loop run for `b` balls. -/
theorem galton_board_tally_index (n N : Nat) (flips : Nat → Bool) (b : Nat) (hb : b < N) :
    galton_board_balls (n : Int) (N : Int) flips 0 (List.replicate (n + 1) 0, 0)
      = galton_board_balls (n : Int) (N : Int) flips (b : Int)
          (galton_board_balls (n : Int) (b : Int) flips 0 (List.replicate (n + 1) 0, 0))
    ∧ (galton_board_balls (n : Int) (b : Int) flips 0 (List.replicate (n + 1) 0, 0)).1.length
        = n + 1
    ∧ 0 ≤ (galton_board_ball (n : Int) flips
        (galton_board_balls (n : Int) (b : Int) flips 0 (List.replicate (n + 1) 0, 0)).2).1
    ∧ (galton_board_ball (n : Int) flips
        (galton_board_balls (n : Int) (b : Int) flips 0 (List.replicate (n + 1) 0, 0)).2).1
          ≤ (n : Int)
    ∧ (galton_board_ball (n : Int) flips
        (galton_board_balls (n : Int) (b : Int) flips 0 (List.replicate (n + 1) 0, 0)).2).1.toNat
          < (galton_board_balls (n : Int) (b : Int) flips 0
              (List.replicate (n + 1) 0, 0)).1.length := by
  have hn : ((n : Int) + 1).toNat = n + 1 := by omega
  have hlen : (galton_board_balls (n : Int) (b : Int) flips 0
      (List.replicate (n + 1) 0, 0)).1.length = n + 1 := by
    have := (galton_board_balls_invariant n b flips).1
    unfold galton_board_counts at this
    rw [hn] at this
    exact this
  obtain ⟨h0, h1⟩ := galton_board_ball_bounds n flips
    (galton_board_balls (n : Int) (b : Int) flips 0 (List.replicate (n + 1) 0, 0)).2
  refine ⟨?_, hlen, h0, h1, by rw [hlen]; omega⟩
  unfold galton_board_balls
  exact (for_loop_split (N : Int) _ b (by omega) _).symm

/-- Witness of C13: the second ball (`b = 1`) of `N = 3` balls on `n = 2` levels. -/
theorem galton_board_tally_index_witness :
    (galton_board_balls ((2 : Nat) : Int) ((1 : Nat) : Int) (fun _ => true) 0
        (List.replicate (2 + 1) 0, 0)).1.length = 2 + 1
    ∧ (galton_board_ball ((2 : Nat) : Int) (fun _ => true)
        (galton_board_balls ((2 : Nat) : Int) ((1 : Nat) : Int) (fun _ => true) 0
          (List.replicate (2 + 1) 0, 0)).2).1 ≤ ((2 : Nat) : Int) :=
  ⟨(galton_board_tally_index 2 3 (fun _ => true) 1 (by decide)).2.1,
   (galton_board_tally_index 2 3 (fun _ => true) 1 (by decide)).2.2.2.1⟩

/-- Claim C14: for `n = 0` and every `N > 0`, whatever the coin outcomes, every ball
makes `0` right moves and `galton_board(0, N)` returns `observed = [1]`,
`expected_binom = binomial_distr(0) = [1]` and an observed-vs-binomial error of `0`. -/
theorem galton_board_zero_levels (K : Type) [Field K] [CharZero K] (M : LongDoubleMath K)
    (N : Int) (hN : 0 < N) (flips : Nat → Bool) :
    (∀ pos : Nat, (galton_board_ball 0 flips pos).1 = 0)
    ∧ binomial_distr K 0 = .ok [1]
    ∧ ∃ r : ExperimentResult K, galton_board M 0 N flips = .ok r
        ∧ r.observed = [1] ∧ r.expected_binom = [1] ∧ r.mse_ob_bin = 0 := by
  obtain ⟨N1, rfl⟩ := Int.eq_ofNat_of_zero_le (le_of_lt hN)
  have hN1 : 0 < N1 := by omega
  have hbin : binomial_distr K 0 = .ok [1] := by
    have h := binomial_distr_eq_map (K := K) 0
    have e0 : binomial_coeff K 0 0 = 1 :=
      binomial_coeff_edge 0 0 (by decide) (by decide) (by decide)
    simpa [e0] using h
  have hcounts : galton_board_counts 0 (N1 : Int) flips = [(N1 : Int)] := by
    obtain ⟨hlen, -, hsum⟩ := galton_board_balls_invariant 0 N1 flips
    rw [Nat.cast_zero] at hlen hsum
    obtain ⟨c, hc⟩ := List.length_eq_one.mp hlen
    rw [hc] at hsum ⊢
    simp at hsum
    rw [hsum]
  have hobs : galton_board_observed K 0 (N1 : Int) (galton_board_counts 0 (N1 : Int) flips)
      = [1] := by
    have h := galton_board_observed_eq_map (K := K) 0 (N1 : Int)
      (galton_board_counts 0 (N1 : Int) flips)
    rw [Nat.cast_zero] at h
    rw [h, hcounts]
    have hne : ((N1 : Int) : K) ≠ 0 := by
      rw [Int.cast_natCast]
      exact Nat.cast_ne_zero.mpr (by omega)
    show [(((([(N1 : Int)] : List Int).getD 0 0 : Int) : K)) / ((N1 : Int) : K)] = [1]
    rw [List.getD_cons_zero, div_self hne]
  refine ⟨?_, hbin, ?_⟩
  · intro pos
    have h := galton_board_ball_bounds 0 flips pos
    rw [Nat.cast_zero] at h
    omega
  · obtain ⟨b, q, v1, v2, v3, hb, -, -, -, h1, -, -, h⟩ :=
      galton_board_ok M 0 (N1 : Int) flips
    rw [Nat.cast_zero] at hb h1 h
    rw [hbin] at hb
    have hb1 : b = [1] := (Except.ok.inj hb).symm
    rw [hobs] at h1 h
    rw [hb1, mean_squared_error_refl] at h1
    have hv : v1 = 0 := (Except.ok.inj h1).symm
    exact ⟨_, h, rfl, hb1, hv⟩

/-- Witness of C14 over the reals with `N = 7` balls. -/
theorem galton_board_zero_levels_witness :
    (0 : Int) < 7
    ∧ ∃ r : ExperimentResult ℝ,
        galton_board (LongDoubleMath.mk Real.sqrt Real.exp Real.arccos) 0 7 (fun i => i % 2 = 0)
          = .ok r
        ∧ r.observed = [1] ∧ r.expected_binom = [1] ∧ r.mse_ob_bin = 0 :=
  ⟨by decide,
   (galton_board_zero_levels ℝ (LongDoubleMath.mk Real.sqrt Real.exp Real.arccos) 7 (by decide)
    (fun i => i % 2 = 0)).2.2⟩

/-- Claim C15: the theoretical part of a result depends on `n` only.  For `n ≥ 0` there
are the values `b = binomial_distr(n)`, `q = normal_distr(n)` and their error `m`, and
every call of `galton_board` with this `n` (any `N`, any coin outcomes) returns them as
`expected_binom`, `expected_normal` and `mse_bin_norm`.  Whatever the arguments of the
driver, every run it makes has these three values and a report it prints has them as
`binom`, `norm` and `mse_bin_norm`; for valid arguments with `n < INT_MAX` the driver
does print such a report, taken from its last run. -/
theorem galton_board_theory_fixed (K : Type) [Field K] (M : LongDoubleMath K) (n : Nat) :
    ∃ (b q : List K) (m : K),
      binomial_distr K (n : Int) = .ok b ∧ normal_distr M (n : Int) = .ok q
      ∧ mean_squared_error b q = .ok m
      ∧ (∀ (N : Int) (flips : Nat → Bool), ∃ r : ExperimentResult K,
          galton_board M (n : Int) N flips = .ok r
            ∧ r.expected_binom = b ∧ r.expected_normal = q ∧ r.mse_bin_norm = m)
      ∧ (∀ (argc N x : Int) (flips : Nat → Nat → Bool),
          (∀ rep : Report K, (main M argc (n : Int) N x flips).result = .ok rep →
            rep.binom = b ∧ rep.norm = q ∧ rep.mse_bin_norm = m)
          ∧ ∀ r ∈ (main M argc (n : Int) N x flips).runs,
              r.expected_binom = b ∧ r.expected_normal = q ∧ r.mse_bin_norm = m)
      ∧ (∀ (N x : Int) (flips : Nat → Nat → Bool),
          0 < n → (n : Int) < INT_MAX → 0 < N → 0 < x →
          ∃ rep : Report K, (main M 4 (n : Int) N x flips).result = .ok rep
            ∧ rep.binom = b ∧ rep.norm = q ∧ rep.mse_bin_norm = m
            ∧ ∀ r ∈ (main M 4 (n : Int) N x flips).runs,
                r.expected_binom = b ∧ r.expected_normal = q ∧ r.mse_bin_norm = m) := by
  obtain ⟨b, q, _, _, m, hb, hq, -, -, -, -, hm, -⟩ := galton_board_ok M n 0 (fun _ => true)
  have hall : ∀ (N : Int) (flips : Nat → Bool) (r : ExperimentResult K),
      galton_board M (n : Int) N flips = .ok r →
        r.expected_binom = b ∧ r.expected_normal = q ∧ r.mse_bin_norm = m := by
    intro N flips r hr
    obtain ⟨b1, q1, w1, w2, w3, hb1, hq1, -, -, -, -, hm1, h⟩ := galton_board_ok M n N flips
    rw [hb] at hb1
    rw [hq] at hq1
    have eb : b = b1 := Except.ok.inj hb1
    have eq1 : q = q1 := Except.ok.inj hq1
    subst eb
    subst eq1
    rw [hm] at hm1
    have em : m = w3 := Except.ok.inj hm1
    rw [h] at hr
    have er := Except.ok.inj hr
    rw [← er]
    exact ⟨rfl, rfl, em.symm⟩
  -- what `main` returns once its checks and the allocation have passed
  have hvalid : ∀ (N1 x1 : Nat) (flips : Nat → Nat → Bool), 0 < n → 0 < N1 → 0 < x1 →
      ¬ int_wrap ((n : Int) + 1) < 0 →
      ∃ rep : Report K, (main M 4 (n : Int) (N1 : Int) (x1 : Int) flips).result = .ok rep
        ∧ rep.binom = b ∧ rep.norm = q ∧ rep.mse_bin_norm = m
        ∧ ∀ r ∈ (main M 4 (n : Int) (N1 : Int) (x1 : Int) flips).runs,
            r.expected_binom = b ∧ r.expected_normal = q ∧ r.mse_bin_norm = m := by
    intro N1 x1 flips hn hN hx hw
    obtain ⟨r, hr, hmain⟩ := main_valid M n N1 x1 flips hn hN hx hw
    rw [hmain]
    obtain ⟨e1, e2, e3⟩ := hall _ _ _ (hr (x1 - 1))
    refine ⟨_, rfl, e1, e2, e3, ?_⟩
    intro r1 hr1
    simp only [List.mem_map, List.mem_range] at hr1
    obtain ⟨i, -, rfl⟩ := hr1
    exact hall _ _ _ (hr i)
  refine ⟨b, q, m, hb, hq, hm, ?_, ?_, ?_⟩
  · intro N flips
    obtain ⟨b1, q1, w1, w2, w3, -, -, -, -, -, -, -, h⟩ := galton_board_ok M n N flips
    exact ⟨_, h, hall N flips _ h⟩
  · intro argc N x flips
    by_cases hbad : argc ≠ 4 ∨ (n : Int) ≤ 0 ∨ N ≤ 0 ∨ x ≤ 0
    · have hmain : main M argc (n : Int) N x flips = ⟨[], .error (.exit 1)⟩ := by
        unfold main
        by_cases ha : argc ≠ 4
        · rw [if_pos ha]
        · rw [if_neg ha, if_pos (by tauto)]
      rw [hmain]
      exact ⟨fun rep h => (by cases h), fun r h => (by cases h)⟩
    · by_cases hw : int_wrap ((n : Int) + 1) < 0
      · have hmain : main M argc (n : Int) N x flips = ⟨[], .error .length_error⟩ := by
          unfold main
          rw [if_neg (fun hc => hbad (Or.inl hc)), if_neg (fun hc => hbad (Or.inr hc)),
            if_pos hw]
        rw [hmain]
        exact ⟨fun rep h => (by cases h), fun r h => (by cases h)⟩
      · have ha : argc = 4 := by
          by_contra hc
          exact hbad (Or.inl hc)
        have hn : 0 < n := by
          by_contra hc
          exact hbad (Or.inr (Or.inl (by omega)))
        have hN : 0 < N := by
          by_contra hc
          exact hbad (Or.inr (Or.inr (Or.inl (by omega))))
        have hx : 0 < x := by
          by_contra hc
          exact hbad (Or.inr (Or.inr (Or.inr (by omega))))
        obtain ⟨N1, rfl⟩ := Int.eq_ofNat_of_zero_le (le_of_lt hN)
        obtain ⟨x1, rfl⟩ := Int.eq_ofNat_of_zero_le (le_of_lt hx)
        subst ha
        obtain ⟨rep, h1, h2, h3, h4, h5⟩ :=
          hvalid N1 x1 flips hn (by omega) (by omega) hw
        refine ⟨?_, h5⟩
        intro rep1 hrep1
        rw [h1] at hrep1
        have e := Except.ok.inj hrep1
        rw [← e]
        exact ⟨h2, h3, h4⟩
  · intro N x flips hn hlt hN hx
    obtain ⟨N1, rfl⟩ := Int.eq_ofNat_of_zero_le (le_of_lt hN)
    obtain ⟨x1, rfl⟩ := Int.eq_ofNat_of_zero_le (le_of_lt hx)
    have hw : ¬ int_wrap ((n : Int) + 1) < 0 := by
      rw [int_wrap_succ (n : Int) (by omega) hlt]
      omega
    exact hvalid N1 x1 flips hn (by omega) (by omega) hw

/-- Witness of C15 over the reals: `n = 2`, driver run with `N = 5`, `x = 3`. -/
theorem galton_board_theory_fixed_witness :
    ∃ (b q : List ℝ) (m : ℝ),
      binomial_distr ℝ ((2 : Nat) : Int) = .ok b
      ∧ normal_distr (LongDoubleMath.mk Real.sqrt Real.exp Real.arccos) ((2 : Nat) : Int) = .ok q
      ∧ mean_squared_error b q = .ok m
      ∧ ∃ rep : Report ℝ,
          (main (LongDoubleMath.mk Real.sqrt Real.exp Real.arccos) 4 ((2 : Nat) : Int) 5 3
            (fun _ _ => true)).result = .ok rep
          ∧ rep.binom = b ∧ rep.norm = q ∧ rep.mse_bin_norm = m := by
  obtain ⟨b, q, m, hb, hq, hm, -, -, hmain⟩ :=
    galton_board_theory_fixed ℝ (LongDoubleMath.mk Real.sqrt Real.exp Real.arccos) 2
  obtain ⟨rep, h1, h2, h3, h4, -⟩ :=
    hmain 5 3 (fun _ _ => true) (by decide) (by decide) (by decide) (by decide)
  exact ⟨b, q, m, hb, hq, hm, rep, h1, h2, h3, h4⟩

/-- Claim C16: for `x > 0` and any run results `r 0, .., r (x - 1)` with observed
distributions of length `n + 1`, the driver runs all of them, its mean observed
distribution has `avg_observed[k] = (1/x) * Σ_i (r i).observed[k]` for `k = 0 .. n`, and
its two averaged errors are `(1/x) * Σ_i (r i).mse_ob_bin` and
`(1/x) * Σ_i (r i).mse_ob_norm`; with valid `n`, `N`, `x` and `n < INT_MAX` the function
`main` is this computation on the results of its calls of `galton_board`. -/
theorem main_run_averages (K : Type) [Field K] (n x : Nat) (hx : 0 < x)
    (run : Nat → Except Failure (ExperimentResult K)) (r : Nat → ExperimentResult K)
    (hrun : ∀ i : Nat, i < x → run i = .ok (r i))
    (_hr : ∀ i : Nat, i < x → (r i).observed.length = n + 1) :
    (∃ rep : Report K, (main_run run (n : Int) (x : Int)).result = .ok rep
      ∧ (main_run run (n : Int) (x : Int)).runs = (List.range x).map r
      ∧ rep.avg_observed.length = n + 1
      ∧ (∀ k : Nat, k ≤ n → rep.avg_observed[k]?
          = some ((1 / (x : K)) * ∑ i in Finset.range x, (r i).observed.getD k 0))
      ∧ rep.avg_mse_ob_bin = (1 / (x : K)) * ∑ i in Finset.range x, (r i).mse_ob_bin
      ∧ rep.avg_mse_ob_norm = (1 / (x : K)) * ∑ i in Finset.range x, (r i).mse_ob_norm)
    ∧ (∀ (M : LongDoubleMath K) (N : Int) (flips : Nat → Nat → Bool),
        0 < n → (n : Int) < INT_MAX → 0 < N →
        main M 4 (n : Int) N (x : Int) flips
          = main_run (fun i => galton_board M (n : Int) N (flips i)) (n : Int) (x : Int)) := by
  constructor
  · rw [main_run_eq run r n x hx hrun]
    refine ⟨_, rfl, rfl, by simp, ?_, ?_, ?_⟩
    · intro k hk
      rw [List.getElem?_map, List.getElem?_range (by omega)]
      show some (_ / _) = some _
      rw [div_eq_mul_one_div, mul_comm]
    · show _ / _ = _
      rw [div_eq_mul_one_div, mul_comm]
    · show _ / _ = _
      rw [div_eq_mul_one_div, mul_comm]
  · intro M N flips hn hlt hN
    have hw : ¬ int_wrap ((n : Int) + 1) < 0 := by
      rw [int_wrap_succ (n : Int) (by omega) hlt]
      omega
    exact main_eq_main_run M _ _ _ flips (by omega) hN (by omega) hw

/-- Witness of C16: two runs on `n = 1` level with observed `[1/4, 3/4]` and `[3/4, 1/4]`. -/
theorem main_run_averages_witness :
    ∃ rep : Report ℚ,
      (main_run (fun i => .ok (if i = 0 then ⟨[1 / 4, 3 / 4], [], [], 1, 2, 0⟩
          else ⟨[3 / 4, 1 / 4], [], [], 3, 4, 0⟩)) ((1 : Nat) : Int) ((2 : Nat) : Int)).result
        = .ok rep
      ∧ rep.avg_mse_ob_bin = (1 / ((2 : Nat) : ℚ)) * ∑ i in Finset.range 2,
          (if i = 0 then (⟨[1 / 4, 3 / 4], [], [], 1, 2, 0⟩ : ExperimentResult ℚ)
            else ⟨[3 / 4, 1 / 4], [], [], 3, 4, 0⟩).mse_ob_bin := by
  obtain ⟨rep, h1, -, -, -, h2, -⟩ := (main_run_averages ℚ 1 2 (by decide)
    (fun i => .ok (if i = 0 then ⟨[1 / 4, 3 / 4], [], [], 1, 2, 0⟩
      else ⟨[3 / 4, 1 / 4], [], [], 3, 4, 0⟩))
    (fun i => if i = 0 then ⟨[1 / 4, 3 / 4], [], [], 1, 2, 0⟩
      else ⟨[3 / 4, 1 / 4], [], [], 3, 4, 0⟩)
    (fun _ _ => rfl)
    (fun i _ => by by_cases h : i = 0 <;> simp [h])).1
  exact ⟨rep, h1, h2⟩

/-- Claim C17: over the reals, for every `n > 0` the standard deviation
`sigma = sqrt(n) / 2` of `normal_distr` is strictly positive, so the two divisors
`sigma * sqrt(2 pi)` and `2 * sigma * sigma` are non-zero, and every entry
`normal_distr(n)[k]`, `k = 0 .. n`, is the strictly positive real
`(1 / (sigma * sqrt(2 pi))) * exp(-(k - n/2)^2 / (2 sigma^2))`; among `n ≥ 0` only
`n = 0` gives `sigma = 0`. -/
theorem normal_distr_positive (n : Nat) (hn : 0 < n) :
    normal_sigma (LongDoubleMath.mk Real.sqrt Real.exp Real.arccos) (n : Int)
        = Real.sqrt (n : ℝ) / 2
    ∧ 0 < normal_sigma (LongDoubleMath.mk Real.sqrt Real.exp Real.arccos) (n : Int)
    ∧ normal_sigma (LongDoubleMath.mk Real.sqrt Real.exp Real.arccos) (n : Int)
        * Real.sqrt (2 * Real.pi) ≠ 0
    ∧ 2 * normal_sigma (LongDoubleMath.mk Real.sqrt Real.exp Real.arccos) (n : Int)
        * normal_sigma (LongDoubleMath.mk Real.sqrt Real.exp Real.arccos) (n : Int) ≠ 0
    ∧ (∃ f : List ℝ,
        normal_distr (LongDoubleMath.mk Real.sqrt Real.exp Real.arccos) (n : Int) = .ok f
        ∧ f.length = n + 1
        ∧ ∀ k : Nat, k ≤ n → ∃ v : ℝ, f[k]? = some v ∧ 0 < v
            ∧ v = (1 / ((Real.sqrt (n : ℝ) / 2) * Real.sqrt (2 * Real.pi)))
                * Real.exp ((-(((k : ℝ) - (n : ℝ) / 2) ^ 2)) / (2 * (Real.sqrt (n : ℝ) / 2) ^ 2)))
    ∧ (∀ m : Nat,
        normal_sigma (LongDoubleMath.mk Real.sqrt Real.exp Real.arccos) (m : Int) = 0 ↔ m = 0) := by
  have hsig : ∀ m : Nat,
      normal_sigma (LongDoubleMath.mk Real.sqrt Real.exp Real.arccos) (m : Int)
        = Real.sqrt (m : ℝ) / 2 := by
    intro m
    unfold normal_sigma
    rw [Int.cast_natCast]
  have hnR : (0 : ℝ) < (n : ℝ) := Nat.cast_pos.mpr hn
  have hpos : 0 < Real.sqrt (n : ℝ) / 2 := div_pos (Real.sqrt_pos.mpr hnR) (by norm_num)
  have hpi : 0 < Real.sqrt (2 * Real.pi) :=
    Real.sqrt_pos.mpr (mul_pos (by norm_num) Real.pi_pos)
  refine ⟨hsig n, by rw [hsig n]; exact hpos, ?_, ?_, ?_, ?_⟩
  · rw [hsig n]
    exact ne_of_gt (mul_pos hpos hpi)
  · rw [hsig n]
    exact ne_of_gt (mul_pos (mul_pos (by norm_num) hpos) hpos)
  · refine ⟨_, normal_distr_eq_map _ n, by simp, ?_⟩
    intro k hk
    rw [List.getElem?_map, List.getElem?_range (by omega)]
    have hval : normal_pdf (LongDoubleMath.mk Real.sqrt Real.exp Real.arccos) (n : Int) (k : Int)
        = (1 / ((Real.sqrt (n : ℝ) / 2) * Real.sqrt (2 * Real.pi)))
          * Real.exp ((-(((k : ℝ) - (n : ℝ) / 2) ^ 2)) / (2 * (Real.sqrt (n : ℝ) / 2) ^ 2)) := by
      unfold normal_pdf normal_mu
      simp only [hsig n, Real.arccos_neg_one, Int.cast_natCast]
      congr 2
      ring
    refine ⟨normal_pdf (LongDoubleMath.mk Real.sqrt Real.exp Real.arccos) (n : Int) (k : Int),
      rfl, ?_, hval⟩
    rw [hval]
    exact mul_pos (div_pos one_pos (mul_pos hpos hpi)) (Real.exp_pos _)
  · intro m
    rw [hsig m]
    constructor
    · intro h
      have h2 : Real.sqrt (m : ℝ) = 0 := by linarith
      have h3 : (m : ℝ) = 0 := (Real.sqrt_eq_zero (Nat.cast_nonneg m)).mp h2
      exact_mod_cast h3
    · intro h
      subst h
      simp

/-- Witness of C17 at `n = 4`: `sigma` is positive. -/
theorem normal_distr_positive_witness :
    0 < 4 ∧ 0 < normal_sigma (LongDoubleMath.mk Real.sqrt Real.exp Real.arccos) ((4 : Nat) : Int) :=
  ⟨by decide, (normal_distr_positive 4 (by decide)).2.1⟩

/-- Claim C18: for every `n ≥ 1` and `0 ≤ k ≤ n` the entries `k` and `n - k` of
`normal_distr(n)` are equal in exact arithmetic (the sampled density is symmetric about
`n / 2`); for `n = 1` the two entries of the vector are equal. -/
theorem normal_distr_symm (K : Type) [Field K] [CharZero K] (M : LongDoubleMath K) (n k : Nat)
    (_hn : 1 ≤ n) (hk : k ≤ n) :
    (∃ (f : List K) (v : K), normal_distr M (n : Int) = .ok f ∧ f.length = n + 1
      ∧ f[k]? = some v ∧ f[n - k]? = some v)
    ∧ ∃ v : K, normal_distr M 1 = .ok [v, v] := by
  have hsymm : ∀ (m j : Nat), j ≤ m →
      normal_pdf M (m : Int) ((m - j : Nat) : Int) = normal_pdf M (m : Int) (j : Int) := by
    intro m j hj
    unfold normal_pdf normal_mu
    have hc : (((m - j : Nat) : Int) : K) = (m : K) - (j : K) := by
      rw [Int.cast_natCast, Nat.cast_sub hj]
    simp only [hc, Int.cast_natCast]
    congr 3
    ring
  constructor
  · refine ⟨_, normal_pdf M (n : Int) (k : Int), normal_distr_eq_map M n, by simp, ?_, ?_⟩
    · rw [List.getElem?_map, List.getElem?_range (by omega)]
      rfl
    · rw [List.getElem?_map, List.getElem?_range (by omega)]
      show some (normal_pdf M (n : Int) ((n - k : Nat) : Int)) = _
      rw [hsymm n k hk]
  · refine ⟨normal_pdf M 1 0, ?_⟩
    have h := normal_distr_eq_map M 1
    have h1 := hsymm 1 0 (by decide)
    simp only [Nat.cast_one, Nat.sub_zero, Nat.cast_zero] at h1
    rw [Nat.cast_one] at h
    rw [h]
    simp [List.range_succ, h1]

/-- Witness of C18 over the reals at `n = 3`, `k = 1`. -/
theorem normal_distr_symm_witness :
    ∃ (f : List ℝ) (v : ℝ),
      normal_distr (LongDoubleMath.mk Real.sqrt Real.exp Real.arccos) ((3 : Nat) : Int) = .ok f
      ∧ f.length = 3 + 1 ∧ f[1]? = some v ∧ f[3 - 1]? = some v :=
  (normal_distr_symm ℝ (LongDoubleMath.mk Real.sqrt Real.exp Real.arccos) 3 1
    (by decide) (by decide)).1

/-- Dividing every tally by `N` divides the sum of the tallies by `N`. -/
theorem sum_map_cast_div {K : Type} [Field K] (N : K) (l : List Int) :
    (l.map (fun c : Int => (c : K) / N)).sum = ((l.sum : Int) : K) / N := by
  induction l with
  | nil => simp
  | cons a l ih =>
    rw [List.map_cons, List.sum_cons, List.sum_cons, ih, Int.cast_add, add_div]

/-- Claim C19: for every `n ≥ 0`, `N > 0` and all coin outcomes, the tallies after the
simulation loop sum to exactly `N`, and the observed distribution returned by
`galton_board` has every entry in `[0, 1]` and entries that sum to exactly `1`. -/
theorem galton_board_observed_pmf (K : Type) [LinearOrderedField K] (M : LongDoubleMath K)
    (n : Nat) (N : Int) (hN : 0 < N) (flips : Nat → Bool) :
    (galton_board_counts (n : Int) N flips).sum = N
    ∧ ∃ r : ExperimentResult K, galton_board M (n : Int) N flips = .ok r
        ∧ r.observed.length = n + 1
        ∧ (∀ p ∈ r.observed, 0 ≤ p ∧ p ≤ 1) ∧ r.observed.sum = 1 := by
  obtain ⟨N1, rfl⟩ := Int.eq_ofNat_of_zero_le (le_of_lt hN)
  obtain ⟨hlen, hnonneg, hsum⟩ := galton_board_balls_invariant n N1 flips
  have hNK : (0 : K) < ((N1 : Int) : K) := by
    rw [Int.cast_natCast]
    exact Nat.cast_pos.mpr (by omega)
  have hobs : galton_board_observed K (n : Int) (N1 : Int)
      (galton_board_counts (n : Int) (N1 : Int) flips)
        = (galton_board_counts (n : Int) (N1 : Int) flips).map
            (fun c : Int => (c : K) / ((N1 : Int) : K)) := by
    rw [galton_board_observed_eq_map]
    conv_rhs => rw [eq_map_range_getD (galton_board_counts (n : Int) (N1 : Int) flips)
      (n + 1) 0 hlen]
    rw [List.map_map]
    rfl
  obtain ⟨b, q, v1, v2, v3, -, -, -, -, -, -, -, h⟩ := galton_board_ok M n (N1 : Int) flips
  refine ⟨hsum, _, h, galton_board_observed_length n _ _, ?_, ?_⟩
  · intro p hp
    show 0 ≤ p ∧ p ≤ 1
    rw [hobs, List.mem_map] at hp
    obtain ⟨c, hc, rfl⟩ := hp
    have hc0 : 0 ≤ c := hnonneg c hc
    have hcN : c ≤ (N1 : Int) := by
      rw [← hsum]
      exact List.single_le_sum hnonneg c hc
    constructor
    · exact div_nonneg (Int.cast_nonneg.mpr hc0) (le_of_lt hNK)
    · rw [div_le_one hNK]
      exact Int.cast_le.mpr hcN
  · show (galton_board_observed K (n : Int) (N1 : Int) _).sum = 1
    rw [hobs, sum_map_cast_div, hsum]
    exact div_self (ne_of_gt hNK)

/-- Witness of C19 over the rationals: `n = 3` levels, `N = 10` balls. -/
theorem galton_board_observed_pmf_witness :
    (0 : Int) < 10
    ∧ (galton_board_counts ((3 : Nat) : Int) 10 (fun i => i % 3 = 0)).sum = 10 :=
  ⟨by decide,
   (galton_board_observed_pmf ℚ (LongDoubleMath.mk id id id) 3 10 (by decide)
    (fun i => i % 3 = 0)).1⟩

section MeanOfErrors

variable {K : Type} [LinearOrderedField K]

/-- The squared distance of a mean to `c` is at most the mean of the squared distances. -/
theorem sq_mean_le_mean_sq (x : Nat) (hx : 0 < x) (f : Nat → K) (c : K) :
    ((∑ i in Finset.range x, f i) / (x : K) - c) * ((∑ i in Finset.range x, f i) / (x : K) - c)
      ≤ (∑ i in Finset.range x, (f i - c) * (f i - c)) / (x : K) := by
  have hxK : (0 : K) < (x : K) := Nat.cast_pos.mpr hx
  have h1 : (∑ i in Finset.range x, f i) / (x : K) - c
      = (∑ i in Finset.range x, (f i - c)) / (x : K) := by
    rw [Finset.sum_sub_distrib, Finset.sum_const, Finset.card_range, nsmul_eq_mul, sub_div,
      mul_div_cancel_left₀ c (ne_of_gt hxK)]
  have h2 : (∑ i in Finset.range x, (f i - c)) ^ 2
      ≤ (x : K) * ∑ i in Finset.range x, (f i - c) ^ 2 := by
    have := sq_sum_le_card_mul_sum_sq (s := Finset.range x) (f := fun i => f i - c)
    rwa [Finset.card_range] at this
  have h3 : ∀ i ∈ Finset.range x, (f i - c) * (f i - c) = (f i - c) ^ 2 := by
    intro i _
    rw [pow_two]
  rw [h1, Finset.sum_congr rfl h3, ← pow_two, div_pow, div_le_div_iff₀ (pow_pos hxK 2) hxK]
  calc (∑ i in Finset.range x, (f i - c)) ^ 2 * (x : K)
      ≤ ((x : K) * ∑ i in Finset.range x, (f i - c) ^ 2) * (x : K) :=
        mul_le_mul_of_nonneg_right h2 (le_of_lt hxK)
    _ = (∑ i in Finset.range x, (f i - c) ^ 2) * (x : K) ^ 2 := by ring

/-- The error of the mean of `x` vectors against `c` is at most the mean of their
errors against `c`. -/
theorem error_of_mean_le_mean_error (m x : Nat) (hx : 0 < x) (o : Nat → Nat → K)
    (c : Nat → K) :
    (∑ k in Finset.range m,
        ((∑ i in Finset.range x, o i k) / (x : K) - c k)
          * ((∑ i in Finset.range x, o i k) / (x : K) - c k)) / (m : K)
      ≤ (∑ i in Finset.range x,
          (∑ k in Finset.range m, (o i k - c k) * (o i k - c k)) / (m : K)) / (x : K) := by
  have hm : (0 : K) ≤ (m : K) := Nat.cast_nonneg m
  have hstep : (∑ k in Finset.range m,
        ((∑ i in Finset.range x, o i k) / (x : K) - c k)
          * ((∑ i in Finset.range x, o i k) / (x : K) - c k))
      ≤ ∑ k in Finset.range m,
          (∑ i in Finset.range x, (o i k - c k) * (o i k - c k)) / (x : K) :=
    Finset.sum_le_sum (fun k _ => sq_mean_le_mean_sq x hx (fun i => o i k) (c k))
  have hrhs : (∑ i in Finset.range x,
        (∑ k in Finset.range m, (o i k - c k) * (o i k - c k)) / (m : K)) / (x : K)
      = (∑ k in Finset.range m,
          (∑ i in Finset.range x, (o i k - c k) * (o i k - c k)) / (x : K)) / (m : K) := by
    rw [← Finset.sum_div, ← Finset.sum_div, Finset.sum_comm, div_div, div_div, mul_comm]
  rw [hrhs]
  exact div_le_div_of_nonneg_right hstep hm

end MeanOfErrors

/-- Claim C20: for `n ≥ 1`, `x ≥ 1` and any `x` observed distributions of length
`n + 1`, each compared as `galton_board` does, the error of the mean observed
distribution of the driver against `binomial_distr(n)` is at most the averaged per-run
error that the driver reports as "Observed vs Binomial", and likewise against
`normal_distr(n)` and "Observed vs Normal". -/
theorem mean_distribution_error_le (K : Type) [LinearOrderedField K] (M : LongDoubleMath K)
    (n x : Nat) (_hn : 1 ≤ n) (hx : 1 ≤ x) (obs : Nat → List K)
    (hobs : ∀ i : Nat, i < x → (obs i).length = n + 1) :
    ∃ (rep : Report K) (b q : List K) (v w : K),
      (main_run (fun i => galton_board_compare M (n : Int) (obs i)) (n : Int) (x : Int)).result
        = .ok rep
      ∧ (∀ i : Nat, i < x → ∃ ri : ExperimentResult K,
          galton_board_compare M (n : Int) (obs i) = .ok ri ∧ ri.observed = obs i)
      ∧ binomial_distr K (n : Int) = .ok b ∧ normal_distr M (n : Int) = .ok q
      ∧ mean_squared_error rep.avg_observed b = .ok v ∧ v ≤ rep.avg_mse_ob_bin
      ∧ mean_squared_error rep.avg_observed q = .ok w ∧ w ≤ rep.avg_mse_ob_norm := by
  have hb := binomial_distr_eq_map (K := K) n
  have hq := normal_distr_eq_map M n
  have hbl : ((List.range (n + 1)).map
      (fun k : Nat => binomial_coeff K (n : Int) (k : Int) / (2 : K) ^ (n : Int))).length
        = n + 1 := by simp
  have hql : ((List.range (n + 1)).map
      (fun k : Nat => normal_pdf M (n : Int) (k : Int))).length = n + 1 := by simp
  have hal : ((List.range (n + 1)).map (fun k : Nat =>
      (∑ i in Finset.range x, (obs i).getD k 0) / (x : K))).length = n + 1 := by simp
  -- the error of the mean distribution against any vector `c` of length `n + 1`
  have key : ∀ c : List K, c.length = n + 1 →
      mean_squared_error ((List.range (n + 1)).map (fun k : Nat =>
          (∑ i in Finset.range x, (obs i).getD k 0) / (x : K))) c
        = .ok ((∑ k in Finset.range (n + 1),
            ((∑ i in Finset.range x, (obs i).getD k 0) / (x : K) - c.getD k 0)
              * ((∑ i in Finset.range x, (obs i).getD k 0) / (x : K) - c.getD k 0))
            / ((n + 1 : Nat) : K)) := by
    intro c hc
    rw [mean_squared_error_eq _ _ (hal.trans hc.symm), hal]
    congr 2
    apply Finset.sum_congr rfl
    intro k hk
    rw [Finset.mem_range] at hk
    rw [getD_map_range _ _ _ _ hk]
  -- the error of one run against any vector `c` of length `n + 1`
  have run_err : ∀ (c : List K) (i : Nat), c.length = n + 1 → i < x →
      mean_squared_error (obs i) c
        = .ok ((∑ k in Finset.range (n + 1),
            ((obs i).getD k 0 - c.getD k 0) * ((obs i).getD k 0 - c.getD k 0))
            / ((n + 1 : Nat) : K)) := by
    intro c i hc hi
    rw [mean_squared_error_eq _ _ ((hobs i hi).trans hc.symm), hobs i hi]
  generalize (List.range (n + 1)).map
    (fun k : Nat => binomial_coeff K (n : Int) (k : Int) / (2 : K) ^ (n : Int)) = B at hb hbl
  generalize (List.range (n + 1)).map
    (fun k : Nat => normal_pdf M (n : Int) (k : Int)) = Q at hq hql
  obtain ⟨vbq, hbq⟩ : ∃ vbq : K, mean_squared_error B Q = .ok vbq :=
    ⟨_, mean_squared_error_eq _ _ (hbl.trans hql.symm)⟩
  have hrun : ∀ i : Nat, i < x → galton_board_compare M (n : Int) (obs i)
      = .ok ⟨obs i, B, Q,
          (∑ k in Finset.range (n + 1),
            ((obs i).getD k 0 - B.getD k 0) * ((obs i).getD k 0 - B.getD k 0))
            / ((n + 1 : Nat) : K),
          (∑ k in Finset.range (n + 1),
            ((obs i).getD k 0 - Q.getD k 0) * ((obs i).getD k 0 - Q.getD k 0))
            / ((n + 1 : Nat) : K),
          vbq⟩ := by
    intro i hi
    unfold galton_board_compare
    simp only [hb, hq, run_err _ i hbl hi, run_err _ i hql hi, hbq]
  have hmain := main_run_eq (fun i => galton_board_compare M (n : Int) (obs i)) _ n x
    (by omega)
    (fun i hi => by
      by_cases h : i < x
      · exact hrun i h
      · exact absurd hi h)
  rw [hmain]
  refine ⟨_, _, _, _, _, rfl, fun i hi => ⟨_, hrun i hi, rfl⟩, hb, hq,
    key _ hbl, ?_, key _ hql, ?_⟩
  · exact error_of_mean_le_mean_error (n + 1) x (by omega) (fun i k => (obs i).getD k 0) _
  · exact error_of_mean_le_mean_error (n + 1) x (by omega) (fun i k => (obs i).getD k 0) _

/-- Witness of C20 over the reals: two runs on `n = 1` level with observed
distributions `[1, 0]` and `[0, 1]`. -/
theorem mean_distribution_error_le_witness :
    ∃ (rep : Report ℝ) (b : List ℝ) (v : ℝ),
      (main_run (fun i => galton_board_compare
          (LongDoubleMath.mk Real.sqrt Real.exp Real.arccos) ((1 : Nat) : Int)
          (if i = 0 then [1, 0] else [0, 1])) ((1 : Nat) : Int) ((2 : Nat) : Int)).result
        = .ok rep
      ∧ binomial_distr ℝ ((1 : Nat) : Int) = .ok b
      ∧ mean_squared_error rep.avg_observed b = .ok v ∧ v ≤ rep.avg_mse_ob_bin := by
  obtain ⟨rep, b, q, v, w, h1, -, h2, -, h3, h4, -, -⟩ :=
    mean_distribution_error_le ℝ (LongDoubleMath.mk Real.sqrt Real.exp Real.arccos) 1 2
      (by decide) (by decide) (fun i => if i = 0 then [1, 0] else [0, 1])
      (fun i _ => by by_cases h : i = 0 <;> simp [h])
  exact ⟨rep, b, v, h1, h2, h3, h4⟩

end GaltonBoard
